import Mathlib

/-!
Verification of the turkish-morphology analyzer against its specification.

This file shallowly embeds the Python sources of the repository
(`turkish_morphology/…` and `src/analyzer/…`) into Lean 4:

* Python strings are `List Char` (`Str`); Python `re` patterns are embedded
  as explicit regex ASTs executed by a fueled backtracking engine whose
  priority order (leftmost match, lazy/greedy quantifiers, first-alternative
  preference) mirrors CPython's `re` module on the patterns that occur in
  the sources.  All quantifier bodies of those patterns consume at least one
  character, so the fuel (which bounds the recursion depth) is generous
  enough for every input; running out of fuel would only ever under-match.
* protobuf messages become structures with `Option` fields for presence.
* fallible Python code (exceptions) returns `Except`/`Option`.
-/

set_option maxRecDepth 10000

abbrev Str := List Char

instance {ε α : Type _} [DecidableEq ε] [DecidableEq α] : DecidableEq (Except ε α) :=
  fun x y =>
    match x, y with
    | .ok a, .ok b =>
        if h : a = b then .isTrue (by rw [h])
        else .isFalse (by intro hc; cases hc; exact h rfl)
    | .error a, .error b =>
        if h : a = b then .isTrue (by rw [h])
        else .isFalse (by intro hc; cases hc; exact h rfl)
    | .ok _, .error _ => .isFalse (by intro hc; cases hc)
    | .error _, .ok _ => .isFalse (by intro hc; cases hc)

namespace TM

/-- Apostrophe character (code point 39). -/
def aposC : Char := Char.ofNat 39

/-- Double-quote character (code point 34). -/
def quotC : Char := Char.ofNat 34

/-- Backtick character (code point 96). -/
def btickC : Char := Char.ofNat 96

/-! ### Regex engine

A small backtracking engine.  `matchRE` returns the list of
(end-position, captures) pairs in exactly the priority order in which a
backtracking matcher (CPython `re`) explores them, so `List.head?` of the
result is the match Python reports.  Captures are spans `(group, start, end)`
pushed onto a list; the most recent binding of a group wins. -/

inductive RE where
  | chr (c : Char)
  | cls (p : Char → Bool)
  | cat (r1 r2 : RE)
  | alt (r1 r2 : RE)
  | star (r : RE) (greedy : Bool)
  | opt (r : RE) (greedy : Bool)
  | grp (idx : Nat) (r : RE)

/-- Lazy (`+?`) or greedy (`+`) one-or-more, as `r · r*`. -/
def rePlus (r : RE) (greedy : Bool) : RE := RE.cat r (RE.star r greedy)

/-- Literal character sequence `c :: cs` as a chain of `chr`. -/
def reLit (c : Char) (cs : Str) : RE :=
  cs.foldl (fun acc c' => RE.cat acc (RE.chr c')) (RE.chr c)

/-- Group captures: `(group index, span start, span end)`, latest first. -/
abbrev Caps := List (Nat × Nat × Nat)

def setCap (caps : Caps) (i s e : Nat) : Caps := (i, s, e) :: caps

def capSpan (caps : Caps) (i : Nat) : Option (Nat × Nat) := caps.lookup i

/-- Size of a regex, used to compute a sufficient fuel. -/
def reSize : RE → Nat
  | .chr _ => 1
  | .cls _ => 1
  | .cat r1 r2 => reSize r1 + reSize r2 + 1
  | .alt r1 r2 => reSize r1 + reSize r2 + 1
  | .star r _ => reSize r + 1
  | .opt r _ => reSize r + 1
  | .grp _ r => reSize r + 1

/-- All ways to match `r` starting at `pos` in `s`, in backtracking
priority order.  The `star` case only recurses on iterations that consumed
at least one character, which is also how CPython's `re` avoids looping on
empty repetitions. -/
def matchRE (s : Str) : Nat → RE → Nat → Caps → List (Nat × Caps)
  | 0, _, _, _ => []
  | _ + 1, .chr c, pos, caps =>
      match s.drop pos with
      | c' :: _ => if c' = c then [(pos + 1, caps)] else []
      | [] => []
  | _ + 1, .cls p, pos, caps =>
      match s.drop pos with
      | c' :: _ => if p c' then [(pos + 1, caps)] else []
      | [] => []
  | fuel + 1, .cat r1 r2, pos, caps =>
      (matchRE s fuel r1 pos caps).flatMap fun pc => matchRE s fuel r2 pc.1 pc.2
  | fuel + 1, .alt r1 r2, pos, caps =>
      matchRE s fuel r1 pos caps ++ matchRE s fuel r2 pos caps
  | fuel + 1, .star r g, pos, caps =>
      let step := matchRE s fuel r pos caps
      let deeper := (step.filter fun pc => pos < pc.1).flatMap
        fun pc => matchRE s fuel (.star r g) pc.1 pc.2
      if g then deeper ++ [(pos, caps)] else (pos, caps) :: deeper
  | fuel + 1, .opt r g, pos, caps =>
      let step := matchRE s fuel r pos caps
      if g then step ++ [(pos, caps)] else (pos, caps) :: step
  | fuel + 1, .grp i r, pos, caps =>
      (matchRE s fuel r pos caps).map fun pc => (pc.1, setCap pc.2 i pos pc.1)

/-- Fuel that bounds the maximal backtracking recursion depth for `r` on
`s` (every nesting level either shrinks the regex or advances the
position). -/
def stdFuel (r : RE) (s : Str) : Nat := (reSize r + 2) * (s.length + 2)

/-- The match Python's `re` reports when anchoring `r` at `pos` in `s`. -/
def reMatchAt (r : RE) (s : Str) (pos : Nat) : Option (Nat × Caps) :=
  (matchRE s (stdFuel r s) r pos []).head?

/-- `re.fullmatch` as a Boolean: some backtracking alternative for a match
anchored at 0 consumes the whole string. -/
def fullmatchB (r : RE) (s : Str) : Bool :=
  (matchRE s (stdFuel r s) r 0 []).any fun pc => pc.1 = s.length

/-- One regex match: span plus captures. -/
structure RMatch where
  mstart : Nat
  mend : Nat
  caps : Caps
deriving DecidableEq, Repr

/-- `re.finditer`: scan left to right, non-overlapping, resuming after each
match (advancing by one position after an empty match, as Python does). -/
def finditerFrom (r : RE) (s : Str) : Nat → Nat → List RMatch
  | 0, _ => []
  | fuel + 1, pos =>
      if pos > s.length then []
      else
        match reMatchAt r s pos with
        | some (e, caps) =>
            if pos < e then ⟨pos, e, caps⟩ :: finditerFrom r s fuel e
            else ⟨pos, e, caps⟩ :: finditerFrom r s fuel (pos + 1)
        | none => finditerFrom r s fuel (pos + 1)

def finditer (r : RE) (s : Str) : List RMatch :=
  finditerFrom r s (s.length + 2) 0

/-- Substring `s[a:b]`. -/
def slice (s : Str) (a b : Nat) : Str := (s.drop a).take (b - a)

/-- The text captured by group `i` of a match (`None` when the group did
not participate in the match). -/
def group (s : Str) (m : RMatch) (i : Nat) : Option Str :=
  (capSpan m.caps i).map fun se => slice s se.1 se.2

/-- Python truthiness of an optional capture: `None` and `""` are falsy. -/
def groupTruthy (s : Str) (m : RMatch) (i : Nat) : Bool :=
  match group s m i with
  | none => false
  | some t => t ≠ []

/-- `re.findall` for a pattern without capturing groups: the matched
substrings. -/
def findallStr (r : RE) (s : Str) : List Str :=
  (finditer r s).map fun m => slice s m.mstart m.mend

/-! ### Character classes used by the repository's patterns -/

/-- `[0-9]`. -/
def digitC (c : Char) : Bool := ('0' ≤ c && c ≤ '9')

/-- `[A-Z]`. -/
def upperAZ (c : Char) : Bool := ('A' ≤ c && c ≤ 'Z')

/-- `[A-z]`: every code point from `A` to `z`, which also contains
`[`, `\`, `]`, `^`, `_` and the backtick. -/
def azWide (c : Char) : Bool := ('A' ≤ c && c ≤ 'z')

/-- `[A-z0-9]`. -/
def azWide09 (c : Char) : Bool := azWide c || digitC c

/-- `[A-Za-z0-9]` (the class the specification's wording uses). -/
def alnumC (c : Char) : Bool :=
  ('A' ≤ c && c ≤ 'Z') || ('a' ≤ c && c ≤ 'z') || digitC c

/-- `.` (any character but a newline). -/
def dotC (c : Char) : Bool := c ≠ '\n'

/-- The letters outside ASCII that occur in the repository's Turkish data;
used to model Python's Unicode-aware `\w`. -/
def turkishLetters : List Char :=
  ['â', 'î', 'û', 'ç', 'ğ', 'ı', 'ö', 'ş', 'ü',
   'Â', 'Î', 'Û', 'Ç', 'Ğ', 'İ', 'Ö', 'Ş', 'Ü']

/-- `[^\W\d_]` — a Unicode letter — modelled over the repository's
alphabet: ASCII letters plus the Turkish letters. -/
def pyLetter (c : Char) : Bool :=
  c.isAlpha || turkishLetters.contains c

/-- `[A-Z\.,:\(\)\'\-\"`\$]` — the part-of-speech tag class. -/
def posTagC (c : Char) : Bool :=
  upperAZ c || c = '.' || c = ',' || c = ':' || c = '(' || c = ')' ||
  c = aposC || c = '-' || c = quotC || c = btickC || c = '$'

/-- `[^\W\d_]|'` — a derivational meta-morpheme character. -/
def derivMetaC (c : Char) : Bool := pyLetter c || c = aposC

/-- `[^\W\d_]|['\.]` — an inflectional meta-morpheme character. -/
def inflMetaC (c : Char) : Bool := pyLetter c || c = aposC || c = '.'

/-! ### `src/analyzer/lexicon/validator.py` feature regexes -/

/-- `(?:\+\[[A-z0-9]+?=[A-z0-9]+?\])+` — `_FEATURES_REGEX` of
`src/analyzer/lexicon/validator.py`, with the source's wide `[A-z]`
ranges. -/
def featuresRegex : RE :=
  rePlus
    (RE.cat (RE.chr '+')
      (RE.cat (RE.chr '[')
        (RE.cat (rePlus (RE.cls azWide09) false)
          (RE.cat (RE.chr '=')
            (RE.cat (rePlus (RE.cls azWide09) false) (RE.chr ']'))))))
    true

/-- The features pattern as the specification's sentence words it,
`(\+\[[A-Za-z0-9]+=[A-Za-z0-9]+\])+`: category and value restricted to
`[A-Za-z0-9]`.  Kept separate from `featuresRegex` (which is translated
from the source) to compare the two. -/
def specFeaturesRegex : RE :=
  rePlus
    (RE.cat (RE.chr '+')
      (RE.cat (RE.chr '[')
        (RE.cat (rePlus (RE.cls alnumC) true)
          (RE.cat (RE.chr '=')
            (RE.cat (rePlus (RE.cls alnumC) true) (RE.chr ']'))))))
    true

/-! ### `turkish_morphology/decompose.py` regexes -/

/-- `-(?:[^\W\d_]|')+?\[[A-z]+?=[A-z]+?\]` — a derivational morpheme with
its feature. -/
def derivSub : RE :=
  RE.cat (RE.chr '-')
    (RE.cat (rePlus (RE.cls derivMetaC) false)
      (RE.cat (RE.chr '[')
        (RE.cat (rePlus (RE.cls azWide) false)
          (RE.cat (RE.chr '=')
            (RE.cat (rePlus (RE.cls azWide) false) (RE.chr ']'))))))

/-- `\+(?:[^\W\d_]|['\.])*?\[[A-z]+?=[A-z0-9]+?\]` — one inflectional
morpheme with its feature. -/
def inflBody : RE :=
  RE.cat (RE.chr '+')
    (RE.cat (RE.star (RE.cls inflMetaC) false)
      (RE.cat (RE.chr '[')
        (RE.cat (rePlus (RE.cls azWide) false)
          (RE.cat (RE.chr '=')
            (RE.cat (rePlus (RE.cls azWide09) false) (RE.chr ']'))))))

/-- `\+\[Proper=(?P<proper>True|False)\]` (group 6 is `proper`). -/
def properSub : RE :=
  RE.cat (RE.chr '+')
    (RE.cat (RE.chr '[')
      (RE.cat (reLit 'P' ("roper=").data)
        (RE.cat
          (RE.grp 6 (RE.alt (reLit 'T' ("rue").data) (reLit 'F' ("alse").data)))
          (RE.chr ']'))))

/-- `_IG_REGEX` of `turkish_morphology/decompose.py`.  Group numbers:
1 `root`, 2 `root_pos`, 3 `derivation_pos`, 4 `derivation`,
5 `inflections`, 6 `proper`. -/
def igRegex : RE :=
  RE.cat (RE.chr '(')
    (RE.cat
      (RE.alt
        (RE.cat (RE.grp 1 (rePlus (RE.cls dotC) false))
          (RE.cat (RE.chr '[')
            (RE.cat (RE.grp 2 (rePlus (RE.cls posTagC) false)) (RE.chr ']'))))
        (RE.cat (RE.chr '[')
          (RE.cat (RE.grp 3 (rePlus (RE.cls posTagC) false))
            (RE.cat (RE.chr ']') (RE.opt (RE.grp 4 derivSub) true)))))
      (RE.cat (RE.grp 5 (RE.star inflBody true))
        (RE.cat (RE.chr ')') (RE.opt properSub true))))

/-- `_AFFIX_REGEX` of `turkish_morphology/decompose.py`.  Group numbers:
1 `meta_morpheme`, 2 `category`, 3 `value`. -/
def affixRegex : RE :=
  RE.cat (RE.cls fun c => c = '+' || c = '-')
    (RE.cat (RE.grp 1 (RE.star (RE.cls inflMetaC) false))
      (RE.cat (RE.chr '[')
        (RE.cat (RE.grp 2 (rePlus (RE.cls azWide) false))
          (RE.cat (RE.chr '=')
            (RE.cat (RE.grp 3 (rePlus (RE.cls azWide09) false))
              (RE.chr ']'))))))

/-! ### The structured-parse data model (`turkish_morphology/analysis.proto`)

The `.proto` file itself is not among the sources; the message shape is
modelled from the specification (§3, §6 "Structured parse schema"): each
field that the Python code tests with `HasField` is an `Option`. -/

/-- A morphological feature: category and value (proto optional
strings). -/
structure Feature where
  category : Option Str
  value : Option Str
deriving DecidableEq, Repr, Inhabited

/-- An affix: a feature and an optional meta-morpheme. -/
structure Affix where
  feature : Option Feature
  meta_morpheme : Option Str
deriving DecidableEq, Repr, Inhabited

/-- A root: an optional morpheme string. -/
structure Root where
  morpheme : Option Str
deriving DecidableEq, Repr, Inhabited

/-- An inflectional group. -/
structure InflGroup where
  pos : Option Str
  root : Option Root
  derivation : Option Affix
  inflection : List Affix
  proper : Option Bool
deriving DecidableEq, Repr, Inhabited

/-- A structured parse: a sequence of inflectional groups. -/
structure Analysis where
  ig : List InflGroup
deriving DecidableEq, Repr, Inhabited

/-! ### `turkish_morphology/pretty_print.py`

Reading an unset proto field yields the default value (empty string /
default message), hence the `getD` calls. -/

/-- `pretty_print._feature`. -/
def featureStr (f : Feature) : Str :=
  '[' :: f.category.getD [] ++ '=' :: f.value.getD [] ++ [']']

/-- `pretty_print._affix`. -/
def affixStr (a : Affix) (derivational : Bool) : Str :=
  (if derivational then '-' else '+') ::
    a.meta_morpheme.getD [] ++ featureStr (a.feature.getD default)

/-- `pretty_print._inflectional_group`. -/
def igStr (position : Nat) (g : InflGroup) : Str :=
  let pos := '[' :: g.pos.getD [] ++ [']']
  let posRootDeriv :=
    if position = 0 then (g.root.getD default).morpheme.getD [] ++ pos
    else pos ++ affixStr (g.derivation.getD default) true
  let inflections := (g.inflection.map (affixStr · false)).flatten
  let properS : Str :=
    match g.proper with
    | none => []
    | some b => if b then ("+[Proper=True]").data else ("+[Proper=False]").data
  '(' :: posRootDeriv ++ inflections ++ ')' :: properS

/-- The inflectional groups rendered from index `i` on, concatenated. -/
def igsStr : Nat → List InflGroup → Str
  | _, [] => []
  | i, g :: rest => igStr i g ++ igsStr (i + 1) rest

/-- `pretty_print.analysis`. -/
def prettyAnalysis (a : Analysis) : Str := igsStr 0 a.ig

/-! ### `turkish_morphology/decompose.py` -/

/-- `decompose._make_affix`: parse a sequence of human-readable affixes. -/
def makeAffix (d : Str) : List Affix :=
  (finditer affixRegex d).map fun m =>
    { feature := some
        { category := some ((group d m 2).getD [])
          value := some ((group d m 3).getD []) }
      meta_morpheme := if groupTruthy d m 1 then group d m 1 else none }

/-- One inflectional group built from an `igRegex` match (the body of the
loop of `decompose.human_readable_analysis`). -/
def buildIG (s : Str) (position : Nat) (m : RMatch) : InflGroup :=
  let base : InflGroup :=
    if position = 0 then
      { pos := some ((group s m 2).getD [])
        root := some ⟨some ((group s m 1).getD [])⟩
        derivation := none, inflection := [], proper := none }
    else
      { pos := some ((group s m 3).getD [])
        root := none
        derivation := some ((makeAffix ((group s m 4).getD [])).head?.getD default)
        inflection := [], proper := none }
  let withInfl := { base with inflection := makeAffix ((group s m 5).getD []) }
  if groupTruthy s m 6 then
    { withInfl with proper := some ((group s m 6).getD [] = ("True").data) }
  else withInfl

/-- The inflectional groups built from the matches, first one at index 0. -/
def buildIGs (s : Str) : Nat → List RMatch → List InflGroup
  | _, [] => []
  | i, m :: rest => buildIG s i m :: buildIGs s (i + 1) rest

/-- The well-formedness condition `decompose.human_readable_analysis`
tests before building the parse: some match exists, the last match ends
at the end of the input, the first match captured `root` and `root_pos`,
and every later match captured `derivation` and `derivation_pos`. -/
def decomposeCond (s : Str) (ms : List RMatch) : Bool :=
  !ms.isEmpty &&
  (match ms.getLast? with
   | some m => m.mend = s.length
   | none => false) &&
  (match ms.head? with
   | some m => groupTruthy s m 1 && groupTruthy s m 2
   | none => false) &&
  (ms.tail.all fun m => groupTruthy s m 4) &&
  (ms.tail.all fun m => groupTruthy s m 3)

/-- `decompose.human_readable_analysis`. -/
def humanReadableAnalysis (s : Str) : Except Str Analysis :=
  if s = [] then .error ("Human-readable analysis is empty.").data
  else
    let ms := finditer igRegex s
    if decomposeCond s ms then .ok ⟨buildIGs s 0 ms⟩
    else .error ("Human-readable analysis is ill-formed.").data

/-! ### `turkish_morphology/validate.py` -/

/-- `validate._root`. -/
def validateRoot (r : Root) : Except Str Unit := do
  if r.morpheme.isNone then throw ("Root is missing morpheme").data
  if r.morpheme.getD [] = [] then throw ("Root morpheme is empty").data

/-- `validate._feature`. -/
def validateFeature (f : Feature) : Except Str Unit := do
  if f.category.isNone then throw ("Feature is missing category").data
  if f.category.getD [] = [] then throw ("Feature category is empty").data
  if f.value.isNone then throw ("Feature is missing value").data
  if f.value.getD [] = [] then throw ("Feature value is empty").data

/-- `validate._affix`. -/
def validateAffix (a : Affix) (derivational : Bool) : Except Str Unit := do
  if a.feature.isNone then throw ("Affix is missing feature").data
  validateFeature (a.feature.getD default)
  if !derivational then return ()
  if a.meta_morpheme.isNone then
    throw ("Derivational affix is missing meta-morpheme").data
  if a.meta_morpheme.getD [] = [] then
    throw ("Derivational affix meta-morpheme is empty").data

/-- `validate._inflectional_group`. -/
def validateIG (g : InflGroup) (position : Nat) : Except Str Unit := do
  if g.pos.isNone then
    throw ("Inflectional group is missing part-of-speech tag").data
  if g.pos.getD [] = [] then
    throw ("Inflectional group part-of-speech tag is empty").data
  if position = 0 then
    if g.root.isNone then throw ("Inflectional group is missing root").data
    validateRoot (g.root.getD default)
  else
    if g.derivation.isNone then
      throw ("Inflectional group is missing derivational affix").data
    validateAffix (g.derivation.getD default) true
  for inflection in g.inflection do
    validateAffix inflection false

/-- `validate.analysis`. -/
def validateAnalysis (a : Analysis) : Except Str Unit := do
  if a.ig.isEmpty then throw ("Analysis is missing inflectional groups").data
  let rec go : Nat → List InflGroup → Except Str Unit
    | _, [] => pure ()
    | i, g :: rest => do
        validateIG g i
        go (i + 1) rest
  go 0 a.ig

/-! ### `turkish_morphology/generate.py` `_add_proper` (pure value level)

`analysis.ig[-1]` raises `IndexError` on an empty repeated field, hence
the `Option` result. -/

/-- `generate._add_proper` as a pure function: the returned analysis is
the one the rest of `generate.surface_form` works with. -/
def addProper (a : Analysis) : Option Analysis :=
  match a.ig.getLast? with
  | none => none
  | some lastIg =>
      if lastIg.proper.isSome then some a
      else
        some ⟨a.ig.dropLast ++
          [{ lastIg with proper := some (lastIg.pos.getD [] = ("NNP").data) }]⟩

/-- The §8 scenario-4 generation input. -/
def sAraba : Str :=
  ("(araba[NN]+lAr[PersonNumber=A3pl]+[Possessive=Pnon]+DA[Case=Loc])+[Proper=True]").data

/-- The single inflectional group of the structured parse of `sAraba`. -/
def arabaIG : InflGroup :=
  { pos := some ("NN").data
    root := some ⟨some ("araba").data⟩
    derivation := none
    inflection :=
      [⟨some ⟨some ("PersonNumber").data, some ("A3pl").data⟩, some ("lAr").data⟩,
       ⟨some ⟨some ("Possessive").data, some ("Pnon").data⟩, none⟩,
       ⟨some ⟨some ("Case").data, some ("Loc").data⟩, some ("DA").data⟩]
    proper := some true }

/-- The structured parse of `sAraba`. -/
def arabaAnalysis : Analysis := ⟨[arabaIG]⟩

/-- The §8 scenario-1 analysis of "evdeki": the first of the strings
`analyze.surface_form("evdeki")` returns. -/
def sEvdeki : Str :=
  ("(ev[NN]+[PersonNumber=A3sg]+[Possessive=Pnon]+DA[Case=Loc])([JJ]-ki[Derivation=Rel])+[Proper=False]").data

/-- The §8 scenario-2 analysis of "yaşadıklarımdan", returned by
`analyze.surface_form` with `use_proper_feature = false`, so its last
inflectional group carries no proper feature. -/
def sYasa : Str :=
  ("(yaşa[VB]+[Polarity=Pos])([VN]-DHk[Derivation=PastNom]+lAr[PersonNumber=A3pl]+Hm[Possessive=P1sg]+NDAn[Case=Abl])").data

/-- `sYasa` as completed by `generate._add_proper`: the last
inflectional group's part-of-speech tag is `VN`, not `NNP`, so the
proper feature added before FST composition is `False`.  This is the
pretty-printed string `generate.surface_form` actually feeds to the
analyzer FST when generating from the scenario-2 parse. -/
def sYasaProper : Str := sYasa ++ ("+[Proper=False]").data

/-- First inflectional group of the structured parse of `sEvdeki`. -/
def evdekiIG1 : InflGroup :=
  { pos := some ("NN").data
    root := some ⟨some ("ev").data⟩
    derivation := none
    inflection :=
      [⟨some ⟨some ("PersonNumber").data, some ("A3sg").data⟩, none⟩,
       ⟨some ⟨some ("Possessive").data, some ("Pnon").data⟩, none⟩,
       ⟨some ⟨some ("Case").data, some ("Loc").data⟩, some ("DA").data⟩]
    proper := none }

/-- Second inflectional group of the structured parse of `sEvdeki`. -/
def evdekiIG2 : InflGroup :=
  { pos := some ("JJ").data
    root := none
    derivation :=
      some ⟨some ⟨some ("Derivation").data, some ("Rel").data⟩,
        some ("ki").data⟩
    inflection := []
    proper := some false }

/-- The structured parse of `sEvdeki`. -/
def evdekiAnalysis : Analysis := ⟨[evdekiIG1, evdekiIG2]⟩

/-- The parse of `sEvdeki` with the proper feature of its last
inflectional group removed; `_add_proper` completes it back to
`evdekiAnalysis` because `JJ ≠ NNP`. -/
def evdekiNoProper : Analysis :=
  ⟨[evdekiIG1, { evdekiIG2 with proper := none }]⟩

/-- First inflectional group of the structured parse of `sYasaProper`. -/
def yasaIG1 : InflGroup :=
  { pos := some ("VB").data
    root := some ⟨some ("yaşa").data⟩
    derivation := none
    inflection := [⟨some ⟨some ("Polarity").data, some ("Pos").data⟩, none⟩]
    proper := none }

/-- Second inflectional group of the structured parse of `sYasaProper`. -/
def yasaIG2 : InflGroup :=
  { pos := some ("VN").data
    root := none
    derivation :=
      some ⟨some ⟨some ("Derivation").data, some ("PastNom").data⟩,
        some ("DHk").data⟩
    inflection :=
      [⟨some ⟨some ("PersonNumber").data, some ("A3pl").data⟩,
         some ("lAr").data⟩,
       ⟨some ⟨some ("Possessive").data, some ("P1sg").data⟩,
         some ("Hm").data⟩,
       ⟨some ⟨some ("Case").data, some ("Abl").data⟩, some ("NDAn").data⟩]
    proper := some false }

/-- The structured parse of `sYasaProper`. -/
def yasaAnalysis : Analysis := ⟨[yasaIG1, yasaIG2]⟩

/-- The structured parse of `sYasa` itself (scenario 2's string before
`_add_proper`); `_add_proper` completes it to `yasaAnalysis` because
`VN ≠ NNP`. -/
def yasaNoProper : Analysis :=
  ⟨[yasaIG1, { yasaIG2 with proper := none }]⟩

/-! ### Python string built-ins

Models of `str.lower`, `str.upper`, `str.capitalize` and single-character
`str.replace` over the repository's alphabet (ASCII plus the Turkish
letters); `'İ'.lower()` is the two-character `"i̇"` (dotted i +
U+0307), as in CPython. -/

/-- Lowercasing of one character, possibly multi-character (`'İ'`). -/
def pyLowerChar (c : Char) : Str :=
  if c = 'İ' then ['i', Char.ofNat 775]
  else if 'A' ≤ c && c ≤ 'Z' then [Char.ofNat (c.toNat + 32)]
  else if c = 'Ç' then ['ç'] else if c = 'Ğ' then ['ğ']
  else if c = 'Ö' then ['ö'] else if c = 'Ş' then ['ş']
  else if c = 'Ü' then ['ü'] else if c = 'Â' then ['â']
  else if c = 'Î' then ['î'] else if c = 'Û' then ['û']
  else [c]

/-- `str.lower`. -/
def pyLower (s : Str) : Str := s.flatMap pyLowerChar

/-- Uppercasing of one character (single-character on this alphabet). -/
def pyUpperChar (c : Char) : Char :=
  if 'a' ≤ c && c ≤ 'z' then Char.ofNat (c.toNat - 32)
  else if c = 'ı' then 'I'
  else if c = 'ç' then 'Ç' else if c = 'ğ' then 'Ğ'
  else if c = 'ö' then 'Ö' else if c = 'ş' then 'Ş'
  else if c = 'ü' then 'Ü' else if c = 'â' then 'Â'
  else if c = 'î' then 'Î' else if c = 'û' then 'Û'
  else c

/-- `str.upper`. -/
def pyUpper (s : Str) : Str := s.map pyUpperChar

/-- `str.capitalize`: title-case the first character (here equal to its
uppercase), lowercase the rest. -/
def pyCapitalize (s : Str) : Str :=
  match s with
  | [] => []
  | c :: rest => pyUpperChar c :: pyLower rest

/-- `str.replace` for a single-character pattern and replacement. -/
def replaceChar (s : Str) (a b : Char) : Str :=
  s.map fun c => if c = a then b else c

/-! ### `src/analyzer/lexicon/tags.py`

Only the `FORMATTING` table is needed by the claims under verification;
it is transcribed entry by entry from `_TAG_SET` (`formatting` defaults
to `"lower"`). -/

/-- `tags.FORMATTING` as an association list in `_TAG_SET` order. -/
def FORMATTING : List (Str × Str) :=
  [(("JJ").data, ("lower").data), (("JJN").data, ("lower").data),
   (("IN").data, ("lower").data), (("RB").data, ("lower").data),
   (("RB-TEMP").data, ("lower").data), (("WRB").data, ("lower").data),
   (("PFX").data, ("lower").data), (("CC").data, ("lower").data),
   (("DT").data, ("lower").data), (("PDT").data, ("lower").data),
   (("WDT").data, ("lower").data), (("EX").data, ("lower").data),
   (("ADD").data, ("lower").data), (("NN").data, ("lower").data),
   (("NN-ABBR").data, ("upper").data), (("NN-ABBR-APOS").data, ("upper").data),
   (("NN-TEMP").data, ("lower").data), (("NNP").data, ("capitals").data),
   (("NNP-ABBR").data, ("upper").data), (("CD").data, ("lower").data),
   (("CD-DIST").data, ("lower").data), (("CD-ORD").data, ("lower").data),
   (("DUP").data, ("lower").data), (("PRD").data, ("lower").data),
   (("PRD-PNON").data, ("lower").data), (("PRD-PNPOSS").data, ("lower").data),
   (("PRI").data, ("lower").data), (("PRP").data, ("lower").data),
   (("PRP-CASE").data, ("lower").data), (("PRP-IRR").data, ("lower").data),
   (("PRP$").data, ("lower").data), (("PRR").data, ("lower").data),
   (("WP").data, ("lower").data), (("EP").data, ("lower").data),
   (("OP").data, ("lower").data), (("RPC").data, ("lower").data),
   (("RPNEG").data, ("lower").data), (("RPQ").data, ("lower").data),
   (("PUNCT-1").data, ("lower").data), (("PUNCT-2").data, ("lower").data),
   (("PUNCT-3").data, ("lower").data), (("PUNCT-4").data, ("lower").data),
   (("PUNCT-5").data, ("lower").data), (("PUNCT-6").data, ("lower").data),
   (("PUNCT-7").data, ("lower").data), (("PUNCT-8").data, ("lower").data),
   (("NOMP").data, ("lower").data), (("NOMP-APOS").data, ("lower").data),
   (("NOMP-CASE-BARE").data, ("lower").data),
   (("NOMP-CASE-MARKED").data, ("lower").data),
   (("NOMP-PN").data, ("lower").data), (("NOMP-PNON").data, ("lower").data),
   (("NOMP-PNPOSS").data, ("lower").data),
   (("NOMP-WITH-APOS").data, ("lower").data),
   (("VB-HL-AR-DHR").data, ("lower").data), (("VB-HL-AR-HR").data, ("lower").data),
   (("VB-HL-AR-HT").data, ("lower").data), (("VB-HL-AR-NO").data, ("lower").data),
   (("VB-HL-AR-T").data, ("lower").data), (("VB-HL-HR-DHR").data, ("lower").data),
   (("VB-HL-HR-NO").data, ("lower").data), (("VB-HL-HR-T").data, ("lower").data),
   (("VB-HN-AR-DHR").data, ("lower").data), (("VB-HN-HR-DHR").data, ("lower").data),
   (("VB-HN-HR-NO").data, ("lower").data), (("VB-HN-HR-T").data, ("lower").data),
   (("VB-ON-OR-DHR").data, ("lower").data), (("VB-ON-OR-T").data, ("lower").data),
   (("FW").data, ("lower").data), (("GW").data, ("lower").data),
   (("LS").data, ("lower").data), (("NFP").data, ("lower").data),
   (("SYM").data, ("lower").data), (("UH").data, ("lower").data),
   (("XX").data, ("lower").data)]

/-! ### `src/analyzer/lexicon/parser.py` -/

/-- `parser._lower`: Turkish-aware lowercase. -/
def lexLower (s : Str) : Str :=
  pyLower (replaceChar (replaceChar s 'İ' 'i') 'I' 'ı')

/-- `parser._upper`: Turkish-aware uppercase. -/
def lexUpper (s : Str) : Str := pyUpper (replaceChar s 'i' 'İ')

/-- `parser._capitalize`.  The source's
`string.replace("i", "İ", 1)` inside the `startswith("i")` branch
discards its result, so that branch has no effect; the function always
returns `string.replace("I", "ı").capitalize()`. -/
def lexCapitalize (s : Str) : Str := pyCapitalize (replaceChar s 'I' 'ı')

/-- `parser._format_root` (`none` models the `KeyError` on a tag outside
`FORMATTING`). -/
def formatRoot (root tag : Str) : Option Str :=
  match FORMATTING.lookup tag with
  | none => none
  | some f =>
      if f = ("lower").data then some (lexLower root)
      else if f = ("upper").data then some (lexUpper root)
      else if f = ("capitals").data then some (lexCapitalize root)
      else some root

/-- A Python dict value that is either a string or a Boolean (the
`is_compound` field is a string before normalization and a Boolean
after). -/
inductive PyVal where
  | pstr (s : Str)
  | pbool (b : Bool)
deriving DecidableEq, Repr

/-- A lexicon entry annotation (the dict the lexicon reader yields). -/
structure LexEntry where
  tag : Str
  root : Str
  morphophonemics : Str
  features : Str
  is_compound : PyVal
deriving DecidableEq, Repr

/-- `str.lower()` on a dict value: `AttributeError` (modelled `none`)
when the value is a Boolean. -/
def pyValLower : PyVal → Option Str
  | .pstr s => some (pyLower s)
  | .pbool _ => none

/-- The body of `parser._normalize._normalize_entry`: uppercase the tag,
turn `is_compound` into a Boolean, case-format the root, drop `"~"`
annotations. -/
def normalizeEntry (e : LexEntry) : Option LexEntry :=
  match pyValLower e.is_compound with
  | none => none
  | some ics =>
      match formatRoot e.root (pyUpper e.tag) with
      | none => none
      | some root =>
          some
            { tag := pyUpper e.tag
              root := root
              morphophonemics :=
                if e.morphophonemics = ("~").data then [] else e.morphophonemics
              features := if e.features = ("~").data then [] else e.features
              is_compound := .pbool (ics = ("true").data) }

/-- `parser._normalize._root_has_circumflex`. -/
def rootHasCircumflex (e : LexEntry) : Bool :=
  e.root.any fun c => c = 'â' || c = 'î' || c = 'û'

/-- `parser._normalize._make_entry`: the circumflex-free copy. -/
def makeCircumflexFree (e : LexEntry) : LexEntry :=
  let strip := fun s =>
    replaceChar (replaceChar (replaceChar s 'â' 'a') 'î' 'i') 'û' 'u'
  { e with root := strip e.root, morphophonemics := strip e.morphophonemics }

/-- `list(map(_normalize_entry, entries))`: eager map in which the first
failure aborts. -/
def mapNormalize : List LexEntry → Option (List LexEntry)
  | [] => some []
  | e :: rest =>
      match normalizeEntry e with
      | none => none
      | some e' =>
          match mapNormalize rest with
          | none => none
          | some rest' => some (e' :: rest')

/-- `parser._normalize`: normalize every entry, then append a
circumflex-free copy of each normalized entry whose root has a
circumflex letter. -/
def normalizeEntries (entries : List LexEntry) : Option (List LexEntry) :=
  match mapNormalize entries with
  | none => none
  | some ns => some (ns ++ (ns.filter rootHasCircumflex).map makeCircumflexFree)

/-! ### `src/analyzer/lexicon/validator.py` features check -/

/-- `validator._entry_features_annotation_is_valid`: raises exactly when
the features string is neither `"~"` nor a full match of
`_FEATURES_REGEX`. -/
def checkFeaturesAnn (features : Str) : Except Str Unit :=
  if !(features = ("~").data || fullmatchB featuresRegex features) then
    .error ("Entry features annotation is invalid.").data
  else .ok ()

/-! ### `src/analyzer/morphotactics/model_compile.py` -/

/-- Modelled from the spec: `src/analyzer/morphotactics/common.py` is not
among the sources; §4.4 and the glossary fix the epsilon label as
`<eps>`. -/
def EPSILON : Str := ("<eps>").data

/-- `rule_pb2.RewriteRule` (its four string fields, which are the only
ones the compiler reads and writes). -/
structure RewriteRule where
  from_state : Str
  to_state : Str
  input : Str
  output : Str
deriving DecidableEq, Repr

/-- The deduplication key of `_remove_duplicate_rules._key_and_value`. -/
abbrev RuleKey := Str × Str × Str × Str

def ruleKey (r : RewriteRule) : RuleKey :=
  (r.from_state, r.to_state, r.input, r.output)

/-- One `collections.OrderedDict.__setitem__`: an existing key keeps its
position and gets the new value; a new key is appended. -/
def odInsert (m : List (RuleKey × RewriteRule)) (k : RuleKey)
    (v : RewriteRule) : List (RuleKey × RewriteRule) :=
  if m.any fun p => p.1 = k then
    m.map fun p => if p.1 = k then (k, v) else p
  else m ++ [(k, v)]

/-- `model_compile._remove_duplicate_rules`:
`collections.OrderedDict(map(_key_and_value, rule_set.rule)).values()`. -/
def removeDuplicateRules (rules : List RewriteRule) : List RewriteRule :=
  (rules.foldl (fun m r => odInsert m (ruleKey r) r) []).map Prod.snd

/-- `\)\(\[[A-Z]+?\]` — an inflectional-group boundary. -/
def igBoundarySub : RE :=
  RE.cat (RE.chr ')')
    (RE.cat (RE.chr '(')
      (RE.cat (RE.chr '[')
        (RE.cat (rePlus (RE.cls upperAZ) false) (RE.chr ']'))))

/-- `_SYMBOLS_REGEX` of `model_compile.py` (its seven alternatives, in
source order; the derivational and inflectional alternatives coincide
with the sub-patterns of `_IG_REGEX` above). -/
def symbolsRegex : RE :=
  RE.alt
    (RE.cat (RE.chr '(')
      (RE.cat (rePlus (RE.cls dotC) false)
        (RE.cat (RE.chr '[')
          (RE.cat (rePlus (RE.cls posTagC) false) (RE.chr ']')))))
    (RE.alt igBoundarySub
      (RE.alt derivSub
        (RE.alt inflBody
          (RE.alt
            (RE.cat (RE.chr ')')
              (RE.cat (RE.chr '+')
                (RE.cat (RE.chr '[')
                  (RE.cat (reLit 'P' ("roper=").data)
                    (RE.cat (RE.alt (reLit 'T' ("rue").data)
                        (reLit 'F' ("alse").data))
                      (RE.chr ']'))))))
            (RE.alt
              (RE.cat (rePlus (RE.cls digitC) true)
                (RE.opt
                  (RE.cat (RE.chr '[')
                    (RE.cat (rePlus (RE.cls upperAZ) false) (RE.chr ']')))
                  true))
              (RE.cls fun c => c = '(' || c = '.' || c = ','))))))

/-- `model_compile._symbols_of_input`. -/
def symbolsOfInput (label : Str) : List Str :=
  if label = EPSILON then [label]
  else if !(label.contains '[') then label.map fun c => [c]
  else findallStr symbolsRegex label

/-- `model_compile._symbols_of_output`. -/
def symbolsOfOutput (label : Str) : List Str :=
  if label = EPSILON then [label] else label.map fun c => [c]

/-- The `fst_symbols` list accumulated by
`model_compile._symbols_table_file_content`. -/
def fstSymbols (rules : List RewriteRule) : List Str :=
  rules.flatMap fun r => symbolsOfInput r.input ++ symbolsOfOutput r.output

/-- The complex symbols: the distinct non-epsilon symbols of length
greater than one. -/
def complexSymbols (rules : List RewriteRule) : List Str :=
  ((fstSymbols rules).dedup).filter fun s => s ≠ EPSILON && 1 < s.length

/-- Pair the elements of a list with consecutive indices from `i`. -/
def tableFrom (i : Nat) : List Str → List (Str × Nat)
  | [] => []
  | s :: rest => (s, i) :: tableFrom (i + 1) rest

/-- The (symbol, index) pairs of the complex-symbols table file emitted
by `model_compile._symbols_table_file_content`: the complex symbols in
sorted order, indexed consecutively from 983040. -/
def symbolsTable (rules : List RewriteRule) : List (Str × Nat) :=
  tableFrom 983040 ((complexSymbols rules).insertionSort (· ≤ ·))

/-! ### `turkish_morphology/fst.py` and `turkish_morphology/analyze.py`

The FST values manipulated here are the ones obtained from `pywrapfst`
composition; composition itself is the external OpenFst library (spec
§1 places the low-level FST algorithms out of scope), so composed FSTs
appear as values.  `start = none` models `pywrapfst`'s start index −1. -/

/-- An FST arc (weights are never read by the traversal code). -/
structure FstArc where
  ilabel : Nat
  olabel : Nat
  nextstate : Nat
deriving DecidableEq, Repr

/-- An FST: a start state (−1 modelled as `none`) and the outgoing arcs
of every state, in arc-iterator order. -/
structure Fst where
  start : Option Nat
  arcs : Nat → List FstArc

/-- UTF-8 decoding of a byte sequence (strict, as `bytes.decode("utf-8")`),
with fuel for structural recursion. -/
def utf8DecodeF : Nat → List Nat → Option Str
  | 0, _ => none
  | _ + 1, [] => some []
  | fuel + 1, b :: rest =>
      if b < 128 then (utf8DecodeF fuel rest).map (Char.ofNat b :: ·)
      else if b < 194 then none
      else if b < 224 then
        match rest with
        | b2 :: rest2 =>
            if 128 ≤ b2 && b2 < 192 then
              (utf8DecodeF fuel rest2).map
                (Char.ofNat ((b - 192) * 64 + (b2 - 128)) :: ·)
            else none
        | _ => none
      else if b < 240 then
        match rest with
        | b2 :: b3 :: rest3 =>
            if 128 ≤ b2 && b2 < 192 && 128 ≤ b3 && b3 < 192 then
              let cp := (b - 224) * 4096 + (b2 - 128) * 64 + (b3 - 128)
              if 2048 ≤ cp && (cp < 55296 || 57343 < cp) then
                (utf8DecodeF fuel rest3).map (Char.ofNat cp :: ·)
              else none
            else none
        | _ => none
      else if b < 245 then
        match rest with
        | b2 :: b3 :: b4 :: rest4 =>
            if 128 ≤ b2 && b2 < 192 && 128 ≤ b3 && b3 < 192 &&
                128 ≤ b4 && b4 < 192 then
              let cp := (b - 240) * 262144 + (b2 - 128) * 4096 +
                (b3 - 128) * 64 + (b4 - 128)
              if 65536 ≤ cp && cp ≤ 1114111 then
                (utf8DecodeF fuel rest4).map (Char.ofNat cp :: ·)
              else none
            else none
        | _ => none
      else none

/-- `bytes(symbol_indices).decode("utf-8")`: fails when some index is not
a byte or the bytes are not valid UTF-8. -/
def decodeBytes (ls : List Nat) : Option Str :=
  if ls.all (· < 256) then utf8DecodeF (ls.length + 1) ls else none

/-- The label of an arc on the chosen tape (`true` = `ilabel`,
`false` = `olabel`). -/
def arcLabel (ilabelTape : Bool) (a : FstArc) : Nat :=
  if ilabelTape then a.ilabel else a.olabel

/-- `fst.extract_parses`, with fuel (the spec's §9 note makes the
composed FSTs acyclic by construction; the fuel plays the role of the
Python recursion, which would not terminate on a cyclic FST either).
At a state without outgoing arcs the collected symbol indices are
yielded: decoded as UTF-8 bytes on the input tape, or looked up in the
symbol table and concatenated on the output tape. -/
def extractParses (fst : Fst) (symtab : Nat → Str) (ilabelTape : Bool) :
    Nat → Nat → List Nat → List (Option Str)
  | 0, _, _ => []
  | fuel + 1, stateIndex, symbolIndices =>
      let arcs := fst.arcs stateIndex
      (if arcs.isEmpty then
        [if ilabelTape then decodeBytes symbolIndices
         else some ((symbolIndices.map symtab).flatten)]
       else []) ++
      arcs.flatMap fun a =>
        let si := arcLabel ilabelTape a
        extractParses fst symtab ilabelTape fuel a.nextstate
          (if si ≠ 0 then symbolIndices ++ [si] else symbolIndices)

/-- `analyze._extract_analyses`: like `extractParses` on the output tape,
but the epsilon skip compares the looked-up symbol string with
`"<eps>"`. -/
def extractAnalyses (fst : Fst) (symtab : Nat → Str) :
    Nat → Nat → List Str → List Str
  | 0, _, _ => []
  | fuel + 1, stateIndex, symbols =>
      let arcs := fst.arcs stateIndex
      (if arcs.isEmpty then [symbols.flatten] else []) ++
      arcs.flatMap fun a =>
        let symbol := symtab a.olabel
        extractAnalyses fst symtab fuel a.nextstate
          (if symbol ≠ EPSILON then symbols ++ [symbol] else symbols)

/-- `str.replace` for a string pattern: left to right, non-overlapping
(fueled structural recursion; `replaceSub` supplies enough fuel). -/
def replaceSubF : Nat → Str → Str → Str → Str
  | 0, s, _, _ => s
  | fuel + 1, s, pat, sub =>
      if pat ≠ [] && pat.isPrefixOf s then
        sub ++ replaceSubF fuel (s.drop pat.length) pat sub
      else
        match s with
        | [] => []
        | c :: rest => c :: replaceSubF fuel rest pat sub

def replaceSub (s pat sub : Str) : Str := replaceSubF (s.length + 1) s pat sub

/-- `analyze._remove_proper_feature`. -/
def removeProperFeature (s : Str) : Str :=
  replaceSub (replaceSub s ("+[Proper=False]").data []) ("+[Proper=True]").data []

/-- `analyze.surface_form` after the composition step: `output` is the
FST composed from the surface form's byte chain and the analyzer model
(`pywrapfst.compose`, external).  Returns `[]` when composition produced
start index −1, otherwise `sorted(set(...))` of the extracted analyses,
with the proper features stripped when `use_proper_feature` is false. -/
def analyzeSurfaceForm (output : Fst) (symtab : Nat → Str)
    (useProper : Bool) (fuel : Nat) : List Str :=
  match output.start with
  | none => []
  | some q0 =>
      let humanReadable := extractAnalyses output symtab fuel q0 []
      let processed :=
        if useProper then humanReadable
        else humanReadable.map removeProperFeature
      processed.dedup.insertionSort (· ≤ ·)

/-! ### `turkish_morphology/generate.py` with explicit object identity

To state that `generate.surface_form` does not mutate its argument, the
protobuf objects live in a store (allocation list); `CopyFrom` allocates
a fresh object.  Everything after `_add_proper` only reads the
pretty-printed string and the immutable analyzer FST, so it is a value
`rest` of that string. -/

abbrev Store := List Analysis

def storeGet (σ : Store) (r : Nat) : Option Analysis := σ.get? r

/-- The copy of `a` in which the last inflectional group's `proper`
field has been defaulted to `pos == "NNP"` (the object
`generate._add_proper` builds with `CopyFrom` and the assignment to
`with_proper.ig[-1].proper`). -/
def properDefaulted (a : Analysis) (lastIg : InflGroup) : Analysis :=
  ⟨a.ig.dropLast ++
    [{ lastIg with proper := some (lastIg.pos.getD [] = ("NNP").data) }]⟩

/-- `generate._add_proper` on the store: returns the argument reference
when the last inflectional group already has `proper`, otherwise
allocates a copy, sets `proper` of the copy's last group to
`pos == "NNP"` and returns the copy's reference.  `none` models the
`IndexError` of `analysis.ig[-1]` on an empty group list. -/
def addProperStore (σ : Store) (r : Nat) : Option (Store × Nat) :=
  match storeGet σ r with
  | none => none
  | some analysis =>
      match analysis.ig.getLast? with
      | none => none
      | some lastIg =>
          if lastIg.proper.isSome then some (σ, r)
          else some (σ ++ [properDefaulted analysis lastIg], σ.length)

/-- `generate.surface_form` on the store; `rest` abstracts the
composition with the analyzer FST and the extraction of the surface
form, which depend only on the pretty-printed analysis. -/
def generateSurfaceForm (rest : Str → Str) (σ : Store) (r : Nat) :
    Option (Store × Str) :=
  match addProperStore σ r with
  | none => none
  | some (σ₁, r') =>
      match storeGet σ₁ r' with
      | none => none
      | some withProper => some (σ₁, rest (prettyAnalysis withProper))

/-! ### Derived notions the theorems compare the code against -/

/-- Deduplication keeping each duplicated rule at the position of its
*last* occurrence (what the claim about `_remove_duplicate_rules`
asserts). -/
def lastSeenDedup (rules : List RewriteRule) : List RewriteRule :=
  rules.foldr (fun r acc => if r ∈ acc then acc else r :: acc) []

/-- Deduplication keeping each duplicated rule at the position of its
*first* occurrence. -/
def firstSeenDedup (rules : List RewriteRule) : List RewriteRule :=
  rules.foldl (fun acc r => if r ∈ acc then acc else acc ++ [r]) []

/-- Root characters that cannot be confused with the structural
characters of a pretty-printed analysis. -/
def okRootChar (c : Char) : Bool := c ≠ '(' && c ≠ ')' && c ≠ '['

/-- Meta-morpheme characters of the analyzer's own alphabet. -/
def okMetaChar (c : Char) : Bool := pyLetter c || c = aposC || c = '.'

/-- An affix whose printed form can be re-parsed unambiguously: the
feature is present with non-empty alphanumeric category and value, and
the meta-morpheme, when present, is non-empty over the meta-morpheme
alphabet. -/
def canonicalAffixB (a : Affix) : Bool :=
  (match a.meta_morpheme with
   | none => true
   | some m => !m.isEmpty && m.all okMetaChar) &&
  (match a.feature with
   | none => false
   | some f =>
       (match f.category with
        | some (c :: cs) => (c :: cs).all alnumC
        | _ => false) &&
       (match f.value with
        | some (c :: cs) => (c :: cs).all alnumC
        | _ => false))

/-- An inflectional group whose printed form is unambiguous.  `first`
tells whether it is the first group of the analysis. -/
def canonicalIGB (first : Bool) (g : InflGroup) : Bool :=
  (match g.pos with
   | some (c :: cs) => (c :: cs).all upperAZ
   | _ => false) &&
  (if first then
     (match g.root with
      | some r =>
          match r.morpheme with
          | some (c :: cs) => (c :: cs).all okRootChar
          | _ => false
      | none => false) &&
     g.derivation.isNone
   else
     g.root.isNone &&
     (match g.derivation with
      | some d => canonicalAffixB d
      | none => false)) &&
  g.inflection.all canonicalAffixB

/-- An analysis all of whose fields use the analyzer's own alphabet, so
that pretty-printing is injective on it. -/
def canonicalAnalysisB (a : Analysis) : Bool :=
  match a.ig with
  | [] => false
  | g :: rest => canonicalIGB true g && rest.all (canonicalIGB false)

/-- Modelled from the spec: the compiled analyzer FST (a build artifact,
not among the sources) decides which analyses have a derivable surface
form.  By `generate.surface_form`, derivability depends on the analysis
only through `pretty_print.analysis(_add_proper(analysis))`, so the set
is modelled as a set of pretty-printed strings.  §8 certifies these
members: scenario 4 runs generation on `sAraba` directly; scenario 1
returns `sEvdeki` from `analyze.surface_form("evdeki")` and round-trip
property 2 then guarantees `generate.surface_form` succeeds on
`decompose(sEvdeki)`, whose `_add_proper` image pretty-prints as
`sEvdeki` itself (the proper feature is already present); scenario 2
returns the proper-free `sYasa` and property 2 guarantees generation
succeeds on `decompose(sYasa)`, whose `_add_proper` image pretty-prints
as `sYasaProper`. -/
def specDerivableSurfaces : List Str := [sAraba, sEvdeki, sYasaProper]

/-- An analysis whose surface form is derivable (spec-modelled, see
`specDerivableSurfaces`). -/
def surfaceDerivable (a : Analysis) : Prop :=
  ∃ a', addProper a = some a' ∧ prettyAnalysis a' ∈ specDerivableSurfaces

/-- The concatenated renderings of a list of inflection affixes. -/
def joinInfl (l : List Affix) : Str := (l.map (affixStr · false)).flatten

/-- The meta-morpheme string an affix prints (empty when unset). -/
def metaD (a : Affix) : Str := a.meta_morpheme.getD []

/-- The feature category string an affix prints. -/
def catD (a : Affix) : Str := (a.feature.getD default).category.getD []

/-- The feature value string an affix prints. -/
def valD (a : Affix) : Str := (a.feature.getD default).value.getD []

/-- The rendering of the optional proper flag. -/
def properTail : Option Bool → Str
  | none => []
  | some b => if b then ("+[Proper=True]").data else ("+[Proper=False]").data

/-- A path through an FST: `isPath fst q arcsPath q'` holds when the arc
list `arcsPath` leads from state `q` to state `q'`. -/
def isPath (fst : Fst) : Nat → List FstArc → Nat → Prop
  | q, [], q' => q' = q
  | q, a :: p, q' => a ∈ fst.arcs q ∧ isPath fst a.nextstate p q'

/-- The non-epsilon labels of a path on the chosen tape. -/
def nonEpsLabels (ilabelTape : Bool) (p : List FstArc) : List Nat :=
  (p.map (arcLabel ilabelTape)).filter (· ≠ 0)

/-- How `fst.extract_parses` turns collected symbol indices into a
string: UTF-8 byte decoding on the input tape, symbol-table lookup and
concatenation on the output tape. -/
def decodeTape (ilabelTape : Bool) (symtab : Nat → Str) (ls : List Nat) :
    Option Str :=
  if ilabelTape then decodeBytes ls else some ((ls.map symtab).flatten)

/-! ### Concrete objects used by counterexamples and witnesses -/

/-- A rewrite rule (duplicated in `c3Rules`). -/
def ruleA : RewriteRule :=
  ⟨("START").data, ("VB").data, ("(gel[VB]").data, ("gel").data⟩

/-- A second, distinct rewrite rule. -/
def ruleB : RewriteRule :=
  ⟨("START").data, ("NN").data, ("(ev[NN]").data, ("ev").data⟩

/-- A rule sequence with a duplicate: first and last element agree. -/
def c3Rules : List RewriteRule := [ruleA, ruleB, ruleA]

/-- A valid raw lexicon entry. -/
def entryEv : LexEntry :=
  { tag := ("nn").data, root := ("Ev").data, morphophonemics := ("~").data
    features := ("~").data, is_compound := .pstr ("false").data }

/-- `entryEv` after one pass of `parser._normalize`. -/
def entryEvN : LexEntry :=
  { tag := ("NN").data, root := ("ev").data, morphophonemics := []
    features := [], is_compound := .pbool false }

/-- An analysis whose last inflectional group lacks `proper`. -/
def aW : Analysis :=
  ⟨[{ pos := some ("NN").data, root := some ⟨some ("ev").data⟩
      derivation := none, inflection := [], proper := none }]⟩

/-- The single inflectional group of `aW`. -/
def igW : InflGroup :=
  { pos := some ("NN").data, root := some ⟨some ("ev").data⟩
    derivation := none, inflection := [], proper := none }

/-- A validator-accepted, surface-derivable analysis that pretty-prints
to `sAraba` although its root and part-of-speech tag contain bracket
characters: the root is `araba[NN]+lAr` and the "tag" is the middle of
the feature string. -/
def cAlt : Analysis :=
  ⟨[{ pos := some ("PersonNumber=A3pl]+[Possessive=Pnon]+DA[Case=Loc").data
      root := some ⟨some ("araba[NN]+lAr").data⟩
      derivation := none
      inflection := []
      proper := some true }]⟩

/-- A one-arc FST: state 0 steps to the arc-less state 1 reading byte
101 (`e`) and writing symbol 5. -/
def fstW : Fst :=
  ⟨some 0, fun q => if q = 0 then [⟨101, 5, 1⟩] else []⟩

/-- A rank function witnessing that `fstW` is acyclic. -/
def rankW (q : Nat) : Nat := if q = 0 then 1 else 0

/-- A symbol table for `fstW`: symbol 5 is `ev`. -/
def symtabW (i : Nat) : Str := if i = 5 then ("ev").data else EPSILON

/-- A composed FST with two accept paths whose analyses differ only by a
proper feature, used to exercise stripping and deduplication. -/
def outW : Fst :=
  ⟨some 0, fun q => if q = 0 then [⟨0, 7, 1⟩, ⟨0, 8, 2⟩] else []⟩

/-- Symbol table for `outW`. -/
def outSymtabW (i : Nat) : Str :=
  if i = 7 then ("b+[Proper=True]").data
  else if i = 8 then ("b").data
  else EPSILON

/-! ## Helper lemmas -/

/-- Splitting two equal lists at the first occurrence of a marker that
appears in neither prefix. -/
theorem split_at_first {α : Type _} {c : α} :
    ∀ {a a' b b' : List α}, c ∉ a → c ∉ a' →
      a ++ c :: b = a' ++ c :: b' → a = a' ∧ b = b' := by
  intro a
  induction a with
  | nil =>
      intro a' b b' _ ha' h
      cases a' with
      | nil => simpa using h
      | cons y ys =>
          simp only [List.nil_append, List.cons_append, List.cons.injEq] at h
          exact absurd (h.1 ▸ List.mem_cons_self y ys) (h.1 ▸ ha')
  | cons x xs ih =>
      intro a' b b' ha ha' h
      cases a' with
      | nil =>
          simp only [List.nil_append, List.cons_append, List.cons.injEq] at h
          exact absurd (h.1 ▸ List.mem_cons_self x xs) (h.1 ▸ ha)
      | cons y ys =>
          simp only [List.cons_append, List.cons.injEq] at h
          obtain ⟨hxy, ht⟩ := h
          obtain ⟨h1, h2⟩ := ih (fun hm => ha (List.mem_cons_of_mem x hm))
            (fun hm => ha' (List.mem_cons_of_mem y hm)) ht
          exact ⟨by rw [hxy, h1], h2⟩

/-- An element on which a predicate fails is not in a list on which the
predicate holds everywhere. -/
theorem not_mem_of_all {α : Type _} {p : α → Bool} {l : List α}
    (h : l.all p = true) {c : α} (hc : p c = false) : c ∉ l := by
  intro hm
  have := List.all_eq_true.mp h c hm
  rw [hc] at this
  exact Bool.false_ne_true this

/-- A weakly sorted list without duplicates is strictly sorted. -/
theorem pairwise_lt_of_sorted_le_nodup {α : Type _} [LinearOrder α] :
    ∀ {l : List α}, l.Sorted (· ≤ ·) → l.Nodup → l.Pairwise (· < ·) := by
  intro l
  induction l with
  | nil => intro _ _; exact List.Pairwise.nil
  | cons x xs ih =>
      intro hs hn
      rw [List.sorted_cons] at hs
      rw [List.nodup_cons] at hn
      exact List.Pairwise.cons
        (fun y hy => lt_of_le_of_ne (hs.1 y hy)
          (fun he => hn.1 (he ▸ hy)))
        (ih hs.2 hn.2)

/-! ## C3 — deduplication of merged rewrite rules -/

theorem ruleKey_inj {r r' : RewriteRule} (h : ruleKey r = ruleKey r') :
    r = r' := by
  cases r
  cases r'
  simp only [ruleKey, Prod.mk.injEq] at h
  simp [h.1, h.2.1, h.2.2.1, h.2.2.2]

theorem odInsert_map_pair (acc : List RewriteRule) (r : RewriteRule) :
    odInsert (acc.map fun x => (ruleKey x, x)) (ruleKey r) r =
      (if r ∈ acc then acc else acc ++ [r]).map fun x => (ruleKey x, x) := by
  by_cases hmem : r ∈ acc
  · have hany : ((acc.map fun x => (ruleKey x, x)).any
        fun p => p.1 = ruleKey r) = true :=
      List.any_eq_true.mpr
        ⟨(ruleKey r, r), List.mem_map.mpr ⟨r, hmem, rfl⟩, by simp⟩
    rw [odInsert, if_pos hmem, hany]
    simp only [if_true, List.map_map]
    apply List.map_congr_left
    intro x _
    simp only [Function.comp_apply]
    by_cases hk : ruleKey x = ruleKey r
    · have hx : x = r := ruleKey_inj hk
      subst hx
      simp
    · simp [hk]
  · have hany : ((acc.map fun x => (ruleKey x, x)).any
        fun p => p.1 = ruleKey r) = false := by
      rw [Bool.eq_false_iff]
      intro hc
      obtain ⟨p, hp, hpk⟩ := List.any_eq_true.mp hc
      obtain ⟨x, hx, hxp⟩ := List.mem_map.mp hp
      rw [← hxp] at hpk
      simp only [decide_eq_true_eq] at hpk
      exact hmem (ruleKey_inj hpk ▸ hx)
    rw [odInsert, if_neg hmem, hany]
    simp

theorem removeDuplicateRules_foldl (rules : List RewriteRule) :
    ∀ acc : List RewriteRule,
      ((rules.foldl (fun m r => odInsert m (ruleKey r) r)
          (acc.map fun x => (ruleKey x, x))).map Prod.snd) =
        rules.foldl (fun l r => if r ∈ l then l else l ++ [r]) acc := by
  induction rules with
  | nil =>
      intro acc
      simp only [List.foldl_nil, List.map_map]
      calc List.map (Prod.snd ∘ fun x => (ruleKey x, x)) acc
          = List.map id acc := List.map_congr_left fun x _ => rfl
        _ = acc := List.map_id acc
  | cons r rest ih =>
      intro acc
      simp only [List.foldl_cons]
      rw [odInsert_map_pair acc r]
      exact ih (if r ∈ acc then acc else acc ++ [r])

theorem removeDuplicateRules_eq_firstSeen (rules : List RewriteRule) :
    removeDuplicateRules rules = firstSeenDedup rules := by
  have h := removeDuplicateRules_foldl rules []
  simpa [removeDuplicateRules, firstSeenDedup] using h

theorem firstSeenDedup_foldl_nodup (rules : List RewriteRule) :
    ∀ acc : List RewriteRule, acc.Nodup →
      (rules.foldl (fun l r => if r ∈ l then l else l ++ [r]) acc).Nodup := by
  induction rules with
  | nil => intro acc h; exact h
  | cons r rest ih =>
      intro acc h
      simp only [List.foldl_cons]
      by_cases hmem : r ∈ acc
      · rw [if_pos hmem]; exact ih acc h
      · rw [if_neg hmem]
        exact ih (acc ++ [r]) (by simp [List.nodup_append, h, hmem])

theorem firstSeenDedup_foldl_mem (rules : List RewriteRule) :
    ∀ (acc : List RewriteRule) (x : RewriteRule),
      x ∈ rules.foldl (fun l r => if r ∈ l then l else l ++ [r]) acc ↔
        x ∈ acc ∨ x ∈ rules := by
  induction rules with
  | nil => intro acc x; simp
  | cons r rest ih =>
      intro acc x
      simp only [List.foldl_cons]
      by_cases hmem : r ∈ acc
      · rw [if_pos hmem, ih]
        constructor
        · rintro (h | h)
          · exact Or.inl h
          · exact Or.inr (List.mem_cons_of_mem r h)
        · rintro (h | h)
          · exact Or.inl h
          · rcases List.mem_cons.mp h with he | h
            · exact Or.inl (he ▸ hmem)
            · exact Or.inr h
      · rw [if_neg hmem, ih]
        simp only [List.mem_append, List.mem_singleton, List.mem_cons]
        tauto

/-- C3 (amended): `_remove_duplicate_rules` emits each distinct
`(from, to, input, output)` rule exactly once, at the position of its
*first* occurrence (Python's `OrderedDict` keeps the original position
of a re-inserted key; only the stored value — equal as a 4-tuple — comes
from the last occurrence), preserving the relative order of rules. -/
theorem c3_dedup_first_seen (rules : List RewriteRule) :
    removeDuplicateRules rules = firstSeenDedup rules ∧
    (removeDuplicateRules rules).Nodup ∧
    (∀ r, r ∈ removeDuplicateRules rules ↔ r ∈ rules) := by
  refine ⟨removeDuplicateRules_eq_firstSeen rules, ?_, ?_⟩
  · rw [removeDuplicateRules_eq_firstSeen]
    exact firstSeenDedup_foldl_nodup rules [] List.nodup_nil
  · intro r
    rw [removeDuplicateRules_eq_firstSeen]
    have h := firstSeenDedup_foldl_mem rules [] r
    simpa [firstSeenDedup] using h

/-- C3 (counterexample): on `[A, B, A]` the code keeps the duplicated
rule `A` at its first position, not (as the claim states) at the
position of its last occurrence. -/
theorem c3_counterexample :
    removeDuplicateRules c3Rules = [ruleA, ruleB] ∧
    lastSeenDedup c3Rules = [ruleB, ruleA] ∧
    removeDuplicateRules c3Rules ≠ lastSeenDedup c3Rules := by
  refine ⟨by decide, by decide, by decide⟩

/-! ## C4 — Turkish capitalization of `capitals`-formatted roots -/

/-- C4 (code bug): for the `capitals` tag `NNP`, `_format_root` maps the
root `istanbul` to `Istanbul` — the `string.replace("i", "İ", 1)` in
`_capitalize` discards its result, so the documented leading `i` → `İ`
rule (its own docstring and spec §4.2/§9) never fires and the leading
`i` is ASCII-capitalized instead. -/
theorem c4_capitalize_code_bug :
    formatRoot (("istanbul").data) (("NNP").data) = some (("Istanbul").data) ∧
    (("Istanbul").data : Str) ≠ ("İstanbul").data := by
  refine ⟨by decide, by decide⟩

/-! ## C5 — features-annotation syntax check -/

/-- C5 (counterexample): the validator's features regex uses the wide
class `[A-z0-9]`, so `+[_=a]` — whose category `_` is outside
`[A-Za-z0-9]` — is accepted, while the claim demands its rejection. -/
theorem c5_counterexample :
    checkFeaturesAnn (("+[_=a]").data) = .ok () ∧
    fullmatchB specFeaturesRegex (("+[_=a]").data) = false := by
  refine ⟨by decide, by decide⟩

/-- C5 (amended): `_entry_features_annotation_is_valid` raises exactly
when the features string is neither `"~"` nor a full match of
`(?:\+\[[A-z0-9]+?=[A-z0-9]+?\])+`, whose `[A-z]` ranges also admit
`[`, `\`, `]`, `^`, `_` and the backtick inside category and value
names. -/
theorem c5_features_error_iff (features : Str) :
    (∃ e, checkFeaturesAnn features = .error e) ↔
      ¬(features = ("~").data ∨ fullmatchB featuresRegex features = true) := by
  unfold checkFeaturesAnn
  cases hb : (decide (features = ("~").data) || fullmatchB featuresRegex features) with
  | true =>
      simp only [Bool.not_true, Bool.false_eq_true, if_false]
      simp only [Bool.or_eq_true, decide_eq_true_eq] at hb
      constructor
      · rintro ⟨e, he⟩; cases he
      · intro hn; exact absurd hb hn
  | false =>
      simp only [Bool.not_false, if_true]
      rw [Bool.or_eq_false_iff] at hb
      constructor
      · intro _
        rintro (h1 | h2)
        · rw [decide_eq_false_iff_not] at hb
          exact hb.1 h1
        · rw [hb.2] at h2
          exact Bool.false_ne_true h2
      · intro _; exact ⟨_, rfl⟩

/-! ## C9 — (non-)idempotence of lexicon normalization -/

theorem normalizeEntry_pbool {e e' : LexEntry}
    (h : normalizeEntry e = some e') : ∃ b, e'.is_compound = .pbool b := by
  unfold normalizeEntry at h
  cases hl : pyValLower e.is_compound with
  | none => rw [hl] at h; cases h
  | some ics =>
      rw [hl] at h
      cases hf : formatRoot e.root (pyUpper e.tag) with
      | none => rw [hf] at h; cases h
      | some root =>
          rw [hf] at h
          simp only [Option.some.injEq] at h
          exact ⟨_, by rw [← h]⟩

theorem mapNormalize_pbool :
    ∀ {l ns : List LexEntry}, mapNormalize l = some ns →
      ∀ e ∈ ns, ∃ b, e.is_compound = .pbool b := by
  intro l
  induction l with
  | nil =>
      intro ns h e he
      simp only [mapNormalize, Option.some.injEq] at h
      rw [← h] at he
      cases he
  | cons a l ih =>
      intro ns h e he
      unfold mapNormalize at h
      cases ha : normalizeEntry a with
      | none => rw [ha] at h; cases h
      | some a' =>
          rw [ha] at h
          cases hl : mapNormalize l with
          | none => rw [hl] at h; cases h
          | some ns' =>
              rw [hl] at h
              simp only [Option.some.injEq] at h
              rw [← h] at he
              rcases List.mem_cons.mp he with he1 | he2
              · exact he1 ▸ normalizeEntry_pbool ha
              · exact ih hl e he2

theorem normalizeEntries_pbool {l ns : List LexEntry}
    (h : normalizeEntries l = some ns) :
    ∀ e ∈ ns, ∃ b, e.is_compound = .pbool b := by
  unfold normalizeEntries at h
  cases hm : mapNormalize l with
  | none => rw [hm] at h; cases h
  | some base =>
      rw [hm] at h
      simp only [Option.some.injEq] at h
      intro e he
      rw [← h] at he
      rcases List.mem_append.mp he with h1 | h2
      · exact mapNormalize_pbool hm e h1
      · obtain ⟨x, hx, hex⟩ := List.mem_map.mp h2
        have hxb : x ∈ base := List.mem_of_mem_filter hx
        obtain ⟨b, hb⟩ := mapNormalize_pbool hm x hxb
        exact ⟨b, by rw [← hex]; exact hb⟩

/-- C9 (amended): normalization is *not* idempotent — it is a no-op only
on the empty list, and a second application to any non-empty normalized
list fails, because `is_compound` has become a Boolean and the second
pass calls `str.lower` on it (`AttributeError`, modelled as `none`);
entries whose roots retain circumflex letters would moreover be
duplicated again. -/
theorem c9_normalize_second_application (l l' : List LexEntry)
    (h : normalizeEntries l = some l') :
    (l' = [] → normalizeEntries l' = some []) ∧
    (l' ≠ [] → normalizeEntries l' = none) := by
  constructor
  · intro he; rw [he]; rfl
  · intro hne
    cases hl' : l' with
    | nil => exact absurd hl' hne
    | cons e rest =>
        obtain ⟨b, hb⟩ := normalizeEntries_pbool h e (hl' ▸ List.mem_cons_self e rest)
        have hen : normalizeEntry e = none := by
          unfold normalizeEntry
          rw [hb]
          rfl
        unfold normalizeEntries mapNormalize
        rw [hen]

/-- C9 (witness): the amended theorem applied to the concrete valid
entry `entryEv`. -/
theorem c9_witness : normalizeEntries [entryEvN] = none :=
  (c9_normalize_second_application [entryEv] [entryEvN] (by decide)).2 (by decide)

/-- C9 (counterexample): normalizing the singleton `[entryEv]` succeeds,
but normalizing the result again errors instead of leaving it
unchanged. -/
theorem c9_counterexample :
    normalizeEntries [entryEv] = some [entryEvN] ∧
    normalizeEntries [entryEvN] = none := by
  refine ⟨by decide, by decide⟩

/-! ## C10 — `generate.surface_form` does not mutate its argument -/

/-- C10: `generate.surface_form` never mutates the caller's analysis:
whatever store results from the call still maps the argument reference
to the original value, and when the last inflectional group lacks
`proper`, the default (`pos == "NNP"`) is applied to a freshly allocated
copy while the original object stays intact. -/
theorem c10_generate_no_mutation (rest : Str → Str) (σ : Store) (r : Nat)
    (a : Analysis) (h : storeGet σ r = some a) :
    (∀ σ' out, generateSurfaceForm rest σ r = some (σ', out) →
      storeGet σ' r = some a) ∧
    (∀ lastIg, a.ig.getLast? = some lastIg → lastIg.proper = none →
      addProperStore σ r = some (σ ++ [properDefaulted a lastIg], σ.length) ∧
      σ.length ≠ r ∧
      storeGet (σ ++ [properDefaulted a lastIg]) r = some a) := by
  have hr : r < σ.length := by
    rcases List.get?_eq_some.mp h with ⟨hlt, _⟩
    exact hlt
  constructor
  · intro σ' out hg
    unfold generateSurfaceForm addProperStore at hg
    cases hL : a.ig.getLast? with
    | none =>
        simp only [h, hL] at hg
        exact Option.noConfusion hg
    | some lastIg =>
        by_cases hp : lastIg.proper.isSome
        · simp only [h, hL, if_pos hp, Option.some.injEq, Prod.mk.injEq] at hg
          rw [← hg.1]
          exact h
        · have hget : storeGet (σ ++ [properDefaulted a lastIg]) σ.length
              = some (properDefaulted a lastIg) := List.get?_concat_length σ _
          simp only [h, hL, if_neg hp, hget, Option.some.injEq,
            Prod.mk.injEq] at hg
          rw [← hg.1]
          unfold storeGet
          rw [List.get?_append hr]
          exact h
  · intro lastIg hL hnone
    have hps : lastIg.proper.isSome = false := by rw [hnone]; rfl
    refine ⟨?_, ?_, ?_⟩
    · unfold addProperStore
      simp only [h, hL, hps, Bool.false_eq_true, if_false]
    · omega
    · unfold storeGet
      rw [List.get?_append hr]
      exact h

/-- C10 (witness): the theorem applied to the one-object store holding
an analysis whose last group lacks `proper`. -/
theorem c10_witness :
    storeGet ([aW] ++ [properDefaulted aW igW]) 0 = some aW :=
  ((c10_generate_no_mutation (fun s => s) [aW] 0 aW (by decide)).2 igW
    (by decide) (by decide)).2.2

/-! ## C6 — the complex-symbols table -/

theorem tableFrom_map_fst : ∀ (l : List Str) (k : Nat),
    (tableFrom k l).map Prod.fst = l := by
  intro l
  induction l with
  | nil => intro k; rfl
  | cons s rest ih => intro k; simp [tableFrom, ih]

theorem tableFrom_map_snd : ∀ (l : List Str) (k : Nat),
    (tableFrom k l).map Prod.snd = List.range' k l.length := by
  intro l
  induction l with
  | nil => intro k; rfl
  | cons s rest ih =>
      intro k
      simp [tableFrom, ih, List.range'_succ]

theorem tableFrom_length : ∀ (l : List Str) (k : Nat),
    (tableFrom k l).length = l.length := by
  intro l
  induction l with
  | nil => intro k; rfl
  | cons s rest ih => intro k; simp [tableFrom, ih]

theorem tableFrom_mem_fst : ∀ (l : List Str) (k : Nat) (s : Str),
    (∃ i, (s, i) ∈ tableFrom k l) ↔ s ∈ l := by
  intro l
  induction l with
  | nil => intro k s; simp [tableFrom]
  | cons x rest ih =>
      intro k s
      simp only [tableFrom, List.mem_cons]
      constructor
      · rintro ⟨i, hi | hi⟩
        · exact Or.inl (congrArg Prod.fst hi)
        · exact Or.inr ((ih (k + 1) s).mp ⟨i, hi⟩)
      · rintro (he | hm)
        · exact ⟨k, Or.inl (by rw [he])⟩
        · obtain ⟨i, hi⟩ := (ih (k + 1) s).mpr hm
          exact ⟨i, Or.inr hi⟩

theorem tableFrom_fst_mem : ∀ (l : List Str) (k : Nat) (p : Str × Nat),
    p ∈ tableFrom k l → p.1 ∈ l := by
  intro l
  induction l with
  | nil => intro k p h; cases h
  | cons x rest ih =>
      intro k p h
      rcases List.mem_cons.mp h with he | hm
      · rw [he]; exact List.mem_cons_self x rest
      · exact List.mem_cons_of_mem x (ih (k + 1) p hm)

theorem tableFrom_snd_lb : ∀ (l : List Str) (k : Nat) (p : Str × Nat),
    p ∈ tableFrom k l → k ≤ p.2 := by
  intro l
  induction l with
  | nil => intro k p h; cases h
  | cons x rest ih =>
      intro k p h
      rcases List.mem_cons.mp h with he | hm
      · rw [he]
      · exact Nat.le_of_succ_le (ih (k + 1) p hm)

theorem tableFrom_pairwise : ∀ (l : List Str) (k : Nat),
    l.Pairwise (· < ·) →
      (tableFrom k l).Pairwise fun p q => p.1 < q.1 ∧ p.2 < q.2 := by
  intro l
  induction l with
  | nil => intro k _; exact List.Pairwise.nil
  | cons x rest ih =>
      intro k h
      rw [List.pairwise_cons] at h
      refine List.Pairwise.cons ?_ (ih (k + 1) h.2)
      intro q hq
      exact ⟨h.1 q.1 (tableFrom_fst_mem rest (k + 1) q hq),
        Nat.lt_of_succ_le (tableFrom_snd_lb rest (k + 1) q hq)⟩

theorem complexSymbols_nodup (rules : List RewriteRule) :
    (complexSymbols rules).Nodup :=
  ((fstSymbols rules).nodup_dedup).filter _

theorem complexSymbols_mem (rules : List RewriteRule) (s : Str) :
    s ∈ complexSymbols rules ↔
      s ∈ fstSymbols rules ∧ s ≠ EPSILON ∧ 1 < s.length := by
  unfold complexSymbols
  rw [List.mem_filter, List.mem_dedup]
  simp [Bool.and_eq_true, decide_eq_true_eq, and_assoc]

theorem sortedComplex_perm (rules : List RewriteRule) :
    List.Perm ((complexSymbols rules).insertionSort (· ≤ ·))
      (complexSymbols rules) :=
  List.perm_insertionSort (· ≤ ·) (complexSymbols rules)

theorem sortedComplex_pairwise_lt (rules : List RewriteRule) :
    ((complexSymbols rules).insertionSort (· ≤ ·)).Pairwise (· < ·) :=
  pairwise_lt_of_sorted_le_nodup
    (List.sorted_insertionSort (· ≤ ·) (complexSymbols rules))
    ((sortedComplex_perm rules).nodup_iff.mpr (complexSymbols_nodup rules))

/-- C6: the complex-symbols table contains exactly the non-`<eps>`
symbols of length > 1 occurring among the tokenized input and output
labels of the rules, each exactly once; indices are consecutive from
983040 (0xF0000), strictly increasing with the strictly increasing
lexicographic symbol order, and the lexicographically smallest symbol
receives index 983040. -/
theorem c6_symbols_table (rules : List RewriteRule) :
    (∀ s : Str, (∃ i, (s, i) ∈ symbolsTable rules) ↔
      (s ∈ fstSymbols rules ∧ s ≠ EPSILON ∧ 1 < s.length)) ∧
    ((symbolsTable rules).map Prod.fst).Nodup ∧
    ((symbolsTable rules).map Prod.snd =
      List.range' 983040 (symbolsTable rules).length) ∧
    ((symbolsTable rules).Pairwise fun p q => p.1 < q.1 ∧ p.2 < q.2) ∧
    (match symbolsTable rules with
     | [] => True
     | p :: _ => p.2 = 983040 ∧ ∀ q ∈ symbolsTable rules, p.1 ≤ q.1) := by
  refine ⟨?_, ?_, ?_, ?_, ?_⟩
  · intro s
    rw [symbolsTable, tableFrom_mem_fst, (sortedComplex_perm rules).mem_iff,
      complexSymbols_mem]
  · rw [symbolsTable, tableFrom_map_fst]
    exact (sortedComplex_perm rules).nodup_iff.mpr (complexSymbols_nodup rules)
  · rw [symbolsTable, tableFrom_map_snd, tableFrom_length]
  · exact tableFrom_pairwise _ 983040 (sortedComplex_pairwise_lt rules)
  · unfold symbolsTable
    cases hs : (complexSymbols rules).insertionSort (· ≤ ·) with
    | nil => exact trivial
    | cons x rest =>
        refine ⟨rfl, ?_⟩
        intro q hq
        have hsorted : (x :: rest).Sorted (· ≤ ·) := by
          rw [← hs]
          exact List.sorted_insertionSort (· ≤ ·) (complexSymbols rules)
        have hmem : q.1 ∈ x :: rest := by
          have := tableFrom_fst_mem (x :: rest) 983040 q
          simp only [tableFrom] at this ⊢
          exact this hq
        rcases List.mem_cons.mp hmem with he | hm
        · rw [he]
        · exact (List.sorted_cons.mp hsorted).1 q.1 hm

/-! ## C7 — DFS parse extraction over an FST -/

/-- C7: a parse is yielded exactly once per path from the current state
to an accept state (a state without outgoing arcs, the code's and the
glossary's notion of accept); the yielded string joins the non-epsilon
labels collected along the path — UTF-8-decoded byte values on the input
tape, concatenated symbol-table lookups on the output tape — with
epsilon labels contributing nothing.  `rank` witnesses the acyclicity
the spec's §9 note assumes, and bounds the needed recursion fuel. -/
theorem c7_extract_parses (fst : Fst) (symtab : Nat → Str)
    (ilabelTape : Bool) (rank : Nat → Nat)
    (hwf : ∀ q a, a ∈ fst.arcs q → rank a.nextstate < rank q) :
    ∀ (fuel q : Nat), rank q < fuel → ∀ (acc : List Nat) (p : Option Str),
      p ∈ extractParses fst symtab ilabelTape fuel q acc ↔
        ∃ (arcsPath : List FstArc) (q' : Nat),
          isPath fst q arcsPath q' ∧ fst.arcs q' = [] ∧
          p = decodeTape ilabelTape symtab
            (acc ++ nonEpsLabels ilabelTape arcsPath) := by
  intro fuel
  induction fuel with
  | zero => intro q hq; omega
  | succ f ih =>
      intro q hq acc p
      have hq' : rank q ≤ f := Nat.lt_succ_iff.mp hq
      cases harcs : fst.arcs q with
      | nil =>
          simp only [extractParses, harcs, List.isEmpty_nil, if_true,
            List.flatMap_nil, List.append_nil, List.mem_singleton]
          constructor
          · intro hp
            refine ⟨[], q, rfl, harcs, ?_⟩
            rw [hp]
            simp [nonEpsLabels, decodeTape]
          · rintro ⟨ap, q', hpath, _harcs', hp⟩
            cases ap with
            | nil =>
                rw [hp]
                simp [nonEpsLabels, decodeTape]
            | cons arc rest =>
                have : arc ∈ fst.arcs q := hpath.1
                rw [harcs] at this
                cases this
      | cons a l =>
          simp only [extractParses, harcs, List.isEmpty_cons,
            Bool.false_eq_true, if_false, List.nil_append, List.mem_flatMap]
          constructor
          · rintro ⟨arc, harc, hp⟩
            have hrank : rank arc.nextstate < f :=
              Nat.lt_of_lt_of_le (hwf q arc (harcs ▸ harc)) hq'
            obtain ⟨rest, q', hpath, harcs', hdec⟩ :=
              (ih arc.nextstate hrank _ p).mp hp
            refine ⟨arc :: rest, q', ⟨harcs ▸ harc, hpath⟩, harcs', ?_⟩
            rw [hdec]
            by_cases hz : arcLabel ilabelTape arc ≠ 0
            · simp [nonEpsLabels, hz, List.filter_cons]
            · simp only [ne_eq, not_not] at hz
              simp [nonEpsLabels, hz, List.filter_cons]
          · rintro ⟨ap, q', hpath, harcs', hp⟩
            cases ap with
            | nil =>
                rw [hpath] at harcs'
                rw [harcs] at harcs'
                cases harcs'
            | cons arc rest =>
                obtain ⟨harc, hpath'⟩ := hpath
                have hrank : rank arc.nextstate < f :=
                  Nat.lt_of_lt_of_le (hwf q arc harc) hq'
                refine ⟨arc, harcs ▸ harc, ?_⟩
                apply (ih arc.nextstate hrank _ p).mpr
                refine ⟨rest, q', hpath', harcs', ?_⟩
                rw [hp]
                by_cases hz : arcLabel ilabelTape arc ≠ 0
                · simp [nonEpsLabels, hz, List.filter_cons]
                · simp only [ne_eq, not_not] at hz
                  simp [nonEpsLabels, hz, List.filter_cons]

/-- C7 (witness): the theorem applied to the one-arc FST `fstW` shows
its input-tape parse set is exactly the byte string `e` decoded along
the single path. -/
theorem c7_witness :
    ∃ (arcsPath : List FstArc) (q' : Nat),
      isPath fstW 0 arcsPath q' ∧ fstW.arcs q' = [] ∧
      some (("e").data) = decodeTape true symtabW
        ([] ++ nonEpsLabels true arcsPath) := by
  have hwf : ∀ q a, a ∈ fstW.arcs q → rankW a.nextstate < rankW q := by
    intro q a ha
    by_cases hq : q = 0
    · subst hq
      simp only [fstW, if_true, reduceIte, List.mem_singleton] at ha
      rw [ha]
      decide
    · simp [fstW, hq] at ha
  exact (c7_extract_parses fstW symtabW true rankW hwf 2 0 (by decide) []
    (some (("e").data))).mp (by decide)

/-! ## C8 — `analyze.surface_form` -/

theorem extractAnalyses_ne_nil (fst : Fst) (symtab : Nat → Str)
    (rank : Nat → Nat)
    (hwf : ∀ q a, a ∈ fst.arcs q → rank a.nextstate < rank q) :
    ∀ (fuel q : Nat), rank q < fuel → ∀ acc,
      extractAnalyses fst symtab fuel q acc ≠ [] := by
  intro fuel
  induction fuel with
  | zero => intro q hq; omega
  | succ f ih =>
      intro q hq acc
      have hq' : rank q ≤ f := Nat.lt_succ_iff.mp hq
      cases harcs : fst.arcs q with
      | nil => simp [extractAnalyses, harcs]
      | cons a l =>
          have hrank : rank a.nextstate < f :=
            Nat.lt_of_lt_of_le (hwf q a (by rw [harcs]; exact List.mem_cons_self a l)) hq'
          simp only [extractAnalyses, harcs, List.isEmpty_cons,
            Bool.false_eq_true, if_false, List.nil_append, List.flatMap_cons]
          intro hcontra
          rcases List.append_eq_nil.mp hcontra with ⟨h1, _⟩
          exact ih a.nextstate hrank _ h1

/-- C8: `analyze.surface_form` returns the empty list exactly when the
composed FST has start −1; otherwise it returns the distinct extracted
output-tape analyses — with `+[Proper=False]`/`+[Proper=True]` removed
when `use_proper_feature` is false — as a duplicate-free list sorted
strictly ascending in code-point order. -/
theorem c8_analyze_surface_form (output : Fst) (symtab : Nat → Str)
    (useProper : Bool) (rank : Nat → Nat)
    (hwf : ∀ q a, a ∈ output.arcs q → rank a.nextstate < rank q)
    (fuel : Nat) (hf : ∀ q0, output.start = some q0 → rank q0 < fuel) :
    (analyzeSurfaceForm output symtab useProper fuel = [] ↔
      output.start = none) ∧
    (analyzeSurfaceForm output symtab useProper fuel).Nodup ∧
    (analyzeSurfaceForm output symtab useProper fuel).Pairwise (· < ·) ∧
    (∀ s, s ∈ analyzeSurfaceForm output symtab useProper fuel ↔
      ∃ q0 hr, output.start = some q0 ∧
        hr ∈ extractAnalyses output symtab fuel q0 [] ∧
        s = (if useProper then hr else removeProperFeature hr)) := by
  cases hst : output.start with
  | none =>
      refine ⟨?_, ?_, ?_, ?_⟩
      · simp [analyzeSurfaceForm, hst]
      · simp [analyzeSurfaceForm, hst]
      · simp [analyzeSurfaceForm, hst]
      · intro s
        simp [analyzeSurfaceForm, hst]
  | some q0 =>
      have hex : extractAnalyses output symtab fuel q0 [] ≠ [] :=
        extractAnalyses_ne_nil output symtab rank hwf fuel q0 (hf q0 hst) []
      have hproc :
          (if useProper then extractAnalyses output symtab fuel q0 []
           else (extractAnalyses output symtab fuel q0 []).map
             removeProperFeature) ≠ [] := by
        cases useProper with
        | true => simpa using hex
        | false =>
            simp only [Bool.false_eq_true, if_false, ne_eq,
              List.map_eq_nil_iff]
            exact hex
      refine ⟨?_, ?_, ?_, ?_⟩
      · simp only [analyzeSurfaceForm, hst]
        constructor
        · intro hempty
          have hperm := List.perm_insertionSort (· ≤ ·)
            ((if useProper then extractAnalyses output symtab fuel q0 []
              else (extractAnalyses output symtab fuel q0 []).map
                removeProperFeature).dedup)
          rw [hempty] at hperm
          exact absurd ((List.dedup_eq_nil _).mp hperm.symm.eq_nil) hproc
        · intro hc; cases hc
      · simp only [analyzeSurfaceForm, hst]
        exact (List.perm_insertionSort (· ≤ ·) _).nodup_iff.mpr
          (List.nodup_dedup _)
      · simp only [analyzeSurfaceForm, hst]
        exact pairwise_lt_of_sorted_le_nodup
          (List.sorted_insertionSort (· ≤ ·) _)
          ((List.perm_insertionSort (· ≤ ·) _).nodup_iff.mpr
            (List.nodup_dedup _))
      · intro s
        simp only [analyzeSurfaceForm, hst]
        rw [(List.perm_insertionSort (· ≤ ·) _).mem_iff, List.mem_dedup]
        cases useProper with
        | true =>
            simp only [if_true]
            constructor
            · intro hmem
              exact ⟨q0, s, rfl, hmem, rfl⟩
            · rintro ⟨q0', hr, hq0, hmem, hs⟩
              rw [Option.some.injEq] at hq0
              rw [hs, ← hq0] at *
              exact hmem
        | false =>
            simp only [Bool.false_eq_true, if_false, List.mem_map]
            constructor
            · rintro ⟨hr, hmem, hs⟩
              exact ⟨q0, hr, rfl, hmem, hs.symm⟩
            · rintro ⟨q0', hr, hq0, hmem, hs⟩
              rw [Option.some.injEq] at hq0
              rw [← hq0] at hmem
              exact ⟨hr, hmem, hs.symm⟩

/-- C8 (witness): on the concrete composed FST `outW` (start state 0)
the theorem's emptiness criterion shows the result is non-empty. -/
theorem c8_witness : analyzeSurfaceForm outW outSymtabW false 2 ≠ [] := by
  have hwf : ∀ q a, a ∈ outW.arcs q → rankW a.nextstate < rankW q := by
    intro q a ha
    by_cases hq : q = 0
    · subst hq
      simp only [outW, if_true, reduceIte, List.mem_cons,
        List.mem_singleton, List.not_mem_nil, or_false] at ha
      rcases ha with ha | ha <;> (rw [ha]; decide)
    · simp [outW, hq] at ha
  intro hempty
  have h := (c8_analyze_surface_form outW outSymtabW false rankW hwf 2
    (by intro q0 hq0
        simp only [outW] at hq0
        injection hq0 with h0
        rw [← h0]
        decide)).1.mp hempty
  simp [outW] at h

/-! ## C2 — error conditions of `decompose.human_readable_analysis` -/

theorem decomposeCond_true_iff (s : Str) (ms : List RMatch) :
    decomposeCond s ms = true ↔
      (ms ≠ [] ∧
       (∀ m, ms.getLast? = some m → m.mend = s.length) ∧
       (∀ m, ms.head? = some m →
         groupTruthy s m 1 = true ∧ groupTruthy s m 2 = true) ∧
       (∀ m ∈ ms.tail, groupTruthy s m 4 = true) ∧
       (∀ m ∈ ms.tail, groupTruthy s m 3 = true)) := by
  cases ms with
  | nil => simp [decomposeCond]
  | cons m rest =>
      cases hL : (m :: rest).getLast? with
      | none =>
          rw [List.getLast?_eq_none_iff] at hL
          cases hL
      | some mL =>
          unfold decomposeCond
          rw [hL]
          simp only [List.isEmpty_cons, Bool.not_false, Bool.true_and,
            List.head?_cons, List.tail_cons, Bool.and_eq_true,
            List.all_eq_true, decide_eq_true_eq, ne_eq, List.cons_ne_nil,
            not_false_iff, true_and, hL, Option.some.injEq, forall_eq']
          tauto

/-- C2 (amended): `human_readable_analysis` raises exactly when the
input is empty, or the IG regex has no match, or the *last* match does
not end at the end of the input (the code checks only this — unmatched
characters before the first match or between matches are *not*
detected), or the first match lacks `root`/`root_pos`, or some later
match lacks `derivation`/`derivation_pos`; otherwise it returns the
parse built from the matches without raising. -/
theorem c2_decompose_error_iff (s : Str) :
    ((∃ e, humanReadableAnalysis s = .error e) ↔
      (s = [] ∨ finditer igRegex s = [] ∨
       (∃ m, (finditer igRegex s).getLast? = some m ∧ m.mend ≠ s.length) ∨
       (∃ m, (finditer igRegex s).head? = some m ∧
         (groupTruthy s m 1 = false ∨ groupTruthy s m 2 = false)) ∨
       (∃ m ∈ (finditer igRegex s).tail,
         groupTruthy s m 4 = false ∨ groupTruthy s m 3 = false))) ∧
    ((∃ e, humanReadableAnalysis s = .error e) ∨
      humanReadableAnalysis s = .ok ⟨buildIGs s 0 (finditer igRegex s)⟩) := by
  by_cases hs : s = []
  · subst hs
    have herr : humanReadableAnalysis [] =
        .error (("Human-readable analysis is empty.").data) := rfl
    exact ⟨⟨fun _ => Or.inl rfl, fun _ => ⟨_, herr⟩⟩, Or.inl ⟨_, herr⟩⟩
  · have hrw : humanReadableAnalysis s =
        if decomposeCond s (finditer igRegex s) then
          .ok ⟨buildIGs s 0 (finditer igRegex s)⟩
        else .error (("Human-readable analysis is ill-formed.").data) := by
      unfold humanReadableAnalysis
      rw [if_neg hs]
    cases hcond : decomposeCond s (finditer igRegex s) with
    | true =>
        rw [hcond, if_pos rfl] at hrw
        refine ⟨⟨?_, ?_⟩, Or.inr hrw⟩
        · rintro ⟨e, he⟩
          rw [hrw] at he
          cases he
        · intro hdis
          exfalso
          rw [decomposeCond_true_iff] at hcond
          obtain ⟨hne, hend, hhead, h4, h3⟩ := hcond
          rcases hdis with h | h | ⟨m, hm1, hm2⟩ | ⟨m, hm1, hm2⟩ |
            ⟨m, hm1, hm2⟩
          · exact hs h
          · exact hne h
          · exact hm2 (hend m hm1)
          · have hh := hhead m hm1
            rcases hm2 with h' | h'
            · rw [h'] at hh; exact Bool.false_ne_true hh.1
            · rw [h'] at hh; exact Bool.false_ne_true hh.2
          · rcases hm2 with h' | h'
            · have hh := h4 m hm1; rw [h'] at hh
              exact Bool.false_ne_true hh
            · have hh := h3 m hm1; rw [h'] at hh
              exact Bool.false_ne_true hh
    | false =>
        have herr : humanReadableAnalysis s =
            .error (("Human-readable analysis is ill-formed.").data) := by
          rw [hrw, hcond, if_neg (by simp)]
        refine ⟨⟨fun _ => ?_, fun _ => ⟨_, herr⟩⟩, Or.inl ⟨_, herr⟩⟩
        by_contra hneg
        push_neg at hneg
        obtain ⟨h1, h2, h3, h4, h5⟩ := hneg
        have hc : decomposeCond s (finditer igRegex s) = true := by
          rw [decomposeCond_true_iff]
          refine ⟨h2, h3, ?_, ?_, ?_⟩
          · intro m hm
            have hh := h4 m hm
            exact ⟨Bool.eq_true_of_ne_false hh.1, Bool.eq_true_of_ne_false hh.2⟩
          · intro m hm
            exact Bool.eq_true_of_ne_false (h5 m hm).1
          · intro m hm
            exact Bool.eq_true_of_ne_false (h5 m hm).2
        rw [hc] at hcond
        cases hcond

/-- C2 (counterexample): decomposing `x(a[NN])` succeeds although the
regex matches do not cover the whole input (the leading `x` stays
unmatched: the spans sum to 7 of 8 characters), where the claim demands
`IllformedHumanReadableAnalysisError`. -/
theorem c2_counterexample :
    humanReadableAnalysis (("x(a[NN])").data) =
      .ok ⟨[{ pos := some ("NN").data, root := some ⟨some ("a").data⟩,
              derivation := none, inflection := [], proper := none }]⟩ ∧
    ((finditer igRegex (("x(a[NN])").data)).map
        fun m => m.mend - m.mstart).sum ≠ (("x(a[NN])").data).length := by
  refine ⟨by decide, by decide⟩

/-! ## C1 — round trip of pretty-printing and decomposition

The eventual structure: pretty-printing is injective on canonical
analyses (`canonicalAnalysisB`), so on the spec-guaranteed derivable
surface `sAraba` the round trip reduces to one concrete evaluation of
the decomposer. -/

theorem affixStr_shape (a : Affix) :
    affixStr a false = '+' :: metaD a ++ '[' :: catD a ++ '=' :: valD a ++ [']'] := by
  unfold affixStr featureStr metaD catD valD
  simp

theorem affixStr_append (a : Affix) (r : Str) :
    affixStr a false ++ r =
      '+' :: (metaD a ++ '[' :: (catD a ++ '=' :: (valD a ++ ']' :: r))) := by
  rw [affixStr_shape]
  simp [List.append_assoc]

theorem canonicalAffix_dest {a : Affix} (h : canonicalAffixB a = true) :
    (catD a).all alnumC = true ∧
    (valD a).all alnumC = true ∧
    (metaD a).all okMetaChar = true ∧
    (∃ f, a.feature = some f ∧ f.category = some (catD a) ∧
      f.value = some (valD a)) ∧
    (a.meta_morpheme = none ∧ metaD a = [] ∨
      a.meta_morpheme = some (metaD a) ∧ metaD a ≠ []) := by
  obtain ⟨feat, meta⟩ := a
  unfold canonicalAffixB at h
  cases feat with
  | none => simp at h
  | some f =>
      obtain ⟨fcat, fval⟩ := f
      cases fcat with
      | none => simp at h
      | some cat =>
          cases cat with
          | nil => simp at h
          | cons c0 cs =>
              cases fval with
              | none => simp at h
              | some val =>
                  cases val with
                  | nil => simp at h
                  | cons d0 ds =>
                      cases meta with
                      | none =>
                          simp only [Bool.true_and, Bool.and_eq_true] at h
                          refine ⟨?_, ?_, ?_, ?_, ?_⟩
                          · simpa [catD] using h.1
                          · simpa [valD] using h.2
                          · simp [metaD]
                          · exact ⟨⟨some (c0 :: cs), some (d0 :: ds)⟩, rfl,
                              by simp [catD], by simp [valD]⟩
                          · exact Or.inl ⟨rfl, by simp [metaD]⟩
                      | some m =>
                          cases m with
                          | nil => simp at h
                          | cons x xs =>
                              simp only [List.isEmpty_cons, Bool.not_false,
                                Bool.true_and, Bool.and_eq_true] at h
                              refine ⟨?_, ?_, ?_, ?_, ?_⟩
                              · simpa [catD] using h.2.1
                              · simpa [valD] using h.2.2
                              · simpa [metaD] using h.1
                              · exact ⟨⟨some (c0 :: cs), some (d0 :: ds)⟩, rfl,
                                  by simp [catD], by simp [valD]⟩
                              · exact Or.inr ⟨by simp [metaD], by simp [metaD]⟩

theorem affixStr_inj {a a' : Affix} (h : canonicalAffixB a = true)
    (h' : canonicalAffixB a' = true) {r r' : Str}
    (heq : affixStr a false ++ r = affixStr a' false ++ r') :
    a = a' ∧ r = r' := by
  obtain ⟨hcat, hval, hmeta, ⟨f, hf, hfc, hfv⟩, hpres⟩ := canonicalAffix_dest h
  obtain ⟨hcat', hval', hmeta', ⟨f', hf', hfc', hfv'⟩, hpres'⟩ :=
    canonicalAffix_dest h'
  rw [affixStr_append, affixStr_append] at heq
  injection heq with _ heq1
  obtain ⟨hm, heq2⟩ := split_at_first (not_mem_of_all hmeta (by decide))
    (not_mem_of_all hmeta' (by decide)) heq1
  obtain ⟨hc, heq3⟩ := split_at_first (not_mem_of_all hcat (by decide))
    (not_mem_of_all hcat' (by decide)) heq2
  obtain ⟨hv, heq4⟩ := split_at_first (not_mem_of_all hval (by decide))
    (not_mem_of_all hval' (by decide)) heq3
  refine ⟨?_, heq4⟩
  have hfeq : a.feature = a'.feature := by
    rw [hf, hf']
    obtain ⟨fc, fv⟩ := f
    obtain ⟨fc', fv'⟩ := f'
    simp only at hfc hfv hfc' hfv'
    rw [hfc, hfc', hfv, hfv', hc, hv]
  have hmeq : a.meta_morpheme = a'.meta_morpheme := by
    rcases hpres with ⟨h1, h2⟩ | ⟨h1, h2⟩ <;>
      rcases hpres' with ⟨h1', h2'⟩ | ⟨h1', h2'⟩
    · rw [h1, h1']
    · exact absurd (by rw [← hm]; exact h2) h2'
    · exact absurd (by rw [hm]; exact h2') h2
    · rw [h1, h1', hm]
  obtain ⟨af, am⟩ := a
  obtain ⟨af', am'⟩ := a'
  simp only at hfeq hmeq
  rw [hfeq, hmeq]

theorem joinInfl_cons (a : Affix) (t : List Affix) :
    joinInfl (a :: t) = affixStr a false ++ joinInfl t := by
  simp [joinInfl]

theorem joinInfl_inj : ∀ {l l' : List Affix}, l.all canonicalAffixB = true →
    l'.all canonicalAffixB = true → joinInfl l = joinInfl l' → l = l' := by
  intro l
  induction l with
  | nil =>
      intro l' _ h' heq
      cases l' with
      | nil => rfl
      | cons a t =>
          rw [joinInfl_cons, affixStr_shape] at heq
          simp [joinInfl] at heq
  | cons a t ih =>
      intro l' hall hall' heq
      cases l' with
      | nil =>
          rw [joinInfl_cons, affixStr_shape] at heq
          simp [joinInfl] at heq
      | cons a' t' =>
          rw [joinInfl_cons, joinInfl_cons] at heq
          simp only [List.all_cons, Bool.and_eq_true] at hall hall'
          obtain ⟨ha, hr⟩ := affixStr_inj hall.1 hall'.1 heq
          rw [ha, ih hall.2 hall'.2 hr]

theorem properTail_inj : ∀ p p' : Option Bool,
    properTail p = properTail p' → p = p' := by decide

theorem affixStr_chars {a : Affix} (h : canonicalAffixB a = true) :
    ∀ c ∈ affixStr a false, c = '+' ∨ c = '[' ∨ c = '=' ∨ c = ']' ∨
      okMetaChar c = true ∨ alnumC c = true := by
  obtain ⟨hcat, hval, hmeta, _, _⟩ := canonicalAffix_dest h
  intro c hc
  rw [affixStr_shape] at hc
  simp only [List.mem_cons, List.mem_append, List.mem_singleton] at hc
  rcases hc with (((h1 | h1) | h1 | h1) | h1 | h1) | h1 | h1
  · exact Or.inl h1
  · exact Or.inr (Or.inr (Or.inr (Or.inr (Or.inl
      (List.all_eq_true.mp hmeta c h1)))))
  · exact Or.inr (Or.inl h1)
  · exact Or.inr (Or.inr (Or.inr (Or.inr (Or.inr
      (List.all_eq_true.mp hcat c h1)))))
  · exact Or.inr (Or.inr (Or.inl h1))
  · exact Or.inr (Or.inr (Or.inr (Or.inr (Or.inr
      (List.all_eq_true.mp hval c h1)))))
  · exact Or.inr (Or.inr (Or.inr (Or.inl h1)))
  · exact absurd h1 (List.not_mem_nil c)

theorem joinInfl_no_paren {l : List Affix} (h : l.all canonicalAffixB = true) :
    ')' ∉ joinInfl l := by
  intro hm
  unfold joinInfl at hm
  rw [List.mem_flatten] at hm
  obtain ⟨t, ht, hc⟩ := hm
  obtain ⟨x, hx, hxt⟩ := List.mem_map.mp ht
  rw [← hxt] at hc
  have hch := affixStr_chars (List.all_eq_true.mp h x hx) ')' hc
  rcases hch with h1 | h1 | h1 | h1 | h1 | h1 <;> exact absurd h1 (by decide)

theorem igStr_first_shape (g : InflGroup) :
    igStr 0 g = '(' :: ((g.root.getD default).morpheme.getD [] ++
      '[' :: (g.pos.getD [] ++ ']' :: (joinInfl g.inflection ++
        ')' :: properTail g.proper))) := by
  unfold igStr joinInfl properTail
  cases g.proper with
  | none => simp [List.append_assoc]
  | some b => cases b <;> simp [List.append_assoc]

theorem canonicalIG_first_dest {g : InflGroup}
    (h : canonicalIGB true g = true) :
    ∃ pos root, g.pos = some pos ∧ pos.all upperAZ = true ∧
      g.root = some ⟨some root⟩ ∧ root.all okRootChar = true ∧
      g.derivation = none ∧ g.inflection.all canonicalAffixB = true := by
  obtain ⟨gp, gr, gd, gi, gpr⟩ := g
  unfold canonicalIGB at h
  cases gp with
  | none => simp at h
  | some pos =>
      cases pos with
      | nil => simp at h
      | cons p0 ps =>
          cases gr with
          | none => simp at h
          | some r =>
              obtain ⟨rm⟩ := r
              cases rm with
              | none => simp at h
              | some root =>
                  cases root with
                  | nil => simp at h
                  | cons r0 rs =>
                      simp only [if_true, Bool.and_eq_true,
                        Option.isNone_iff_eq_none] at h
                      exact ⟨p0 :: ps, r0 :: rs, rfl, h.1.1, rfl,
                        h.1.2.1, h.1.2.2, h.2⟩

theorem igStr_first_inj {g g' : InflGroup} (hc : canonicalIGB true g = true)
    (hc' : canonicalIGB true g' = true) (heq : igStr 0 g = igStr 0 g') :
    g = g' := by
  obtain ⟨pos, root, hp, hpu, hr, hru, hd, hi⟩ := canonicalIG_first_dest hc
  obtain ⟨pos', root', hp', hpu', hr', hru', hd', hi'⟩ :=
    canonicalIG_first_dest hc'
  rw [igStr_first_shape, igStr_first_shape] at heq
  injection heq with _ heq1
  rw [hp, hr, hp', hr'] at heq1
  simp only [Option.getD_some] at heq1
  obtain ⟨hroot, heq2⟩ := split_at_first (not_mem_of_all hru (by decide))
    (not_mem_of_all hru' (by decide)) heq1
  obtain ⟨hpos, heq3⟩ := split_at_first (not_mem_of_all hpu (by decide))
    (not_mem_of_all hpu' (by decide)) heq2
  obtain ⟨hinfl, heq4⟩ := split_at_first (joinInfl_no_paren hi)
    (joinInfl_no_paren hi') heq3
  have hiq := joinInfl_inj hi hi' hinfl
  have hpq := properTail_inj _ _ heq4
  obtain ⟨gp, gr, gd, gi, gpr⟩ := g
  obtain ⟨gp', gr', gd', gi', gpr'⟩ := g'
  simp only at hp hr hd hp' hr' hd' hiq hpq
  rw [hp, hp', hr, hr', hd, hd', hpos, hroot, hiq, hpq]

theorem igStr_starts_paren (i : Nat) (g : InflGroup) :
    ∃ t, igStr i g = '(' :: t := by
  unfold igStr
  exact ⟨_, rfl⟩

theorem igsStr_count_ge : ∀ (igs : List InflGroup) (i : Nat),
    igs.length ≤ (igsStr i igs).count '(' := by
  intro igs
  induction igs with
  | nil => intro i; simp [igsStr]
  | cons g rest ih =>
      intro i
      obtain ⟨t, ht⟩ := igStr_starts_paren i g
      simp only [igsStr, List.length_cons, List.count_append]
      rw [ht, List.count_cons_self]
      have := ih (i + 1)
      omega

theorem pretty_eq_sAraba_inv {P : Analysis} (hc : canonicalAnalysisB P = true)
    (hp : prettyAnalysis P = sAraba) : P = arabaAnalysis := by
  obtain ⟨igs⟩ := P
  cases igs with
  | nil => simp [canonicalAnalysisB] at hc
  | cons g rest =>
      unfold canonicalAnalysisB at hc
      simp only [Bool.and_eq_true, List.all_eq_true] at hc
      have hcount := igsStr_count_ge (g :: rest) 0
      unfold prettyAnalysis at hp
      rw [hp] at hcount
      have hone : sAraba.count '(' = 1 := by decide
      rw [hone] at hcount
      simp only [List.length_cons] at hcount
      have hrest : rest = [] := List.length_eq_zero.mp (by omega)
      subst hrest
      have hig : igStr 0 g = sAraba := by
        rw [← hp]
        simp [igsStr]
      have hg := igStr_first_inj hc.1
        (show canonicalIGB true arabaIG = true by decide)
        (hig.trans (show sAraba = igStr 0 arabaIG by decide))
      rw [show arabaAnalysis = ⟨[arabaIG]⟩ from rfl, hg]

theorem canonicalIGB_set_proper (first : Bool) (g : InflGroup)
    (p : Option Bool) :
    canonicalIGB first { g with proper := p } = canonicalIGB first g := by
  obtain ⟨gp, gr, gd, gi, gpr⟩ := g
  rfl

theorem append_singleton_inj {α : Type _} {l l' : List α} {x x' : α}
    (h : l ++ [x] = l' ++ [x']) : l = l' ∧ x = x' := by
  have hrev := congrArg List.reverse h
  simp only [List.reverse_append, List.reverse_singleton,
    List.singleton_append, List.cons.injEq] at hrev
  exact ⟨List.reverse_injective hrev.2, hrev.1⟩

theorem dropLast_append_getLast_of_eq {α : Type _} :
    ∀ {l : List α} {x : α}, l.getLast? = some x → l.dropLast ++ [x] = l := by
  intro l
  induction l with
  | nil => intro x h; cases h
  | cons a t ih =>
      intro x h
      cases t with
      | nil =>
          simp only [List.getLast?_singleton, Option.some.injEq] at h
          rw [h]
          rfl
      | cons b u =>
          rw [List.getLast?_cons_cons] at h
          calc (a :: b :: u).dropLast ++ [x]
              = a :: ((b :: u).dropLast ++ [x]) := rfl
            _ = a :: (b :: u) := by rw [ih h]

theorem affixStr_true_shape (a : Affix) :
    affixStr a true =
      '-' :: metaD a ++ '[' :: catD a ++ '=' :: valD a ++ [']'] := by
  unfold affixStr featureStr metaD catD valD
  simp

theorem affixStr_true_append (a : Affix) (r : Str) :
    affixStr a true ++ r =
      '-' :: (metaD a ++ '[' :: (catD a ++ '=' :: (valD a ++ ']' :: r))) := by
  rw [affixStr_true_shape]
  simp [List.append_assoc]

theorem affixStr_true_inj {a a' : Affix} (h : canonicalAffixB a = true)
    (h' : canonicalAffixB a' = true) {r r' : Str}
    (heq : affixStr a true ++ r = affixStr a' true ++ r') :
    a = a' ∧ r = r' := by
  obtain ⟨hcat, hval, hmeta, ⟨f, hf, hfc, hfv⟩, hpres⟩ := canonicalAffix_dest h
  obtain ⟨hcat', hval', hmeta', ⟨f', hf', hfc', hfv'⟩, hpres'⟩ :=
    canonicalAffix_dest h'
  rw [affixStr_true_append, affixStr_true_append] at heq
  injection heq with _ heq1
  obtain ⟨hm, heq2⟩ := split_at_first (not_mem_of_all hmeta (by decide))
    (not_mem_of_all hmeta' (by decide)) heq1
  obtain ⟨hc, heq3⟩ := split_at_first (not_mem_of_all hcat (by decide))
    (not_mem_of_all hcat' (by decide)) heq2
  obtain ⟨hv, heq4⟩ := split_at_first (not_mem_of_all hval (by decide))
    (not_mem_of_all hval' (by decide)) heq3
  refine ⟨?_, heq4⟩
  have hfeq : a.feature = a'.feature := by
    rw [hf, hf']
    obtain ⟨fc, fv⟩ := f
    obtain ⟨fc', fv'⟩ := f'
    simp only at hfc hfv hfc' hfv'
    rw [hfc, hfc', hfv, hfv', hc, hv]
  have hmeq : a.meta_morpheme = a'.meta_morpheme := by
    rcases hpres with ⟨h1, h2⟩ | ⟨h1, h2⟩ <;>
      rcases hpres' with ⟨h1', h2'⟩ | ⟨h1', h2'⟩
    · rw [h1, h1']
    · exact absurd (by rw [← hm]; exact h2) h2'
    · exact absurd (by rw [hm]; exact h2') h2
    · rw [h1, h1', hm]
  obtain ⟨af, am⟩ := a
  obtain ⟨af', am'⟩ := a'
  simp only at hfeq hmeq
  rw [hfeq, hmeq]

theorem canonicalIG_later_dest {g : InflGroup}
    (h : canonicalIGB false g = true) :
    ∃ pos d, g.pos = some pos ∧ pos.all upperAZ = true ∧
      g.root = none ∧ g.derivation = some d ∧ canonicalAffixB d = true ∧
      g.inflection.all canonicalAffixB = true := by
  obtain ⟨gp, gr, gd, gi, gpr⟩ := g
  unfold canonicalIGB at h
  cases gp with
  | none => simp at h
  | some pos =>
      cases pos with
      | nil => simp at h
      | cons p0 ps =>
          cases gr with
          | some r => simp at h
          | none =>
              cases gd with
              | none => simp at h
              | some d =>
                  simp only [Bool.and_eq_true, Option.isNone_none,
                    Bool.true_and, if_false] at h
                  exact ⟨p0 :: ps, d, rfl, h.1.1, rfl, rfl, h.1.2, h.2⟩

theorem igStr_later_shape (i : Nat) (hi : i ≠ 0) (g : InflGroup) :
    igStr i g = '(' :: '[' :: (g.pos.getD [] ++ ']' ::
      (affixStr (g.derivation.getD default) true ++
        (joinInfl g.inflection ++ ')' :: properTail g.proper))) := by
  unfold igStr joinInfl properTail
  cases g.proper with
  | none => simp [hi, List.append_assoc]
  | some b => cases b <;> simp [hi, List.append_assoc]

theorem properTail_some_head (b : Bool) :
    ∃ u, properTail (some b) = '+' :: u := by
  cases b
  · exact ⟨("[Proper=False]").data, by decide⟩
  · exact ⟨("[Proper=True]").data, by decide⟩

theorem properTail_append_inj {p p' : Option Bool} {r r' : Str}
    (hr : r = [] ∨ ∃ t, r = '(' :: t) (hr' : r' = [] ∨ ∃ t, r' = '(' :: t)
    (heq : properTail p ++ r = properTail p' ++ r') : p = p' ∧ r = r' := by
  cases p with
  | none =>
      cases p' with
      | none => exact ⟨rfl, heq⟩
      | some b' =>
          exfalso
          obtain ⟨u, hu⟩ := properTail_some_head b'
          rw [hu] at heq
          have heq2 : r = '+' :: (u ++ r') := heq
          rcases hr with h0 | ⟨t, ht⟩
          · rw [h0] at heq2; cases heq2
          · rw [ht] at heq2
            injection heq2 with h1 _
            exact absurd h1 (by decide)
  | some b =>
      cases p' with
      | none =>
          exfalso
          obtain ⟨u, hu⟩ := properTail_some_head b
          rw [hu] at heq
          have heq2 : '+' :: (u ++ r) = r' := heq
          rcases hr' with h0 | ⟨t, ht⟩
          · rw [h0] at heq2; cases heq2
          · rw [ht] at heq2
            injection heq2 with h1 _
            exact absurd h1 (by decide)
      | some b' =>
          cases b <;> cases b'
          · exact ⟨rfl, List.append_cancel_left heq⟩
          · exfalso
            have h9 : (properTail (some false) ++ r).get? 9 =
                (properTail (some true) ++ r').get? 9 :=
              congrArg (fun l : Str => List.get? l 9) heq
            rw [List.get?_append (by decide), List.get?_append (by decide)]
              at h9
            exact absurd h9 (by decide)
          · exfalso
            have h9 : (properTail (some true) ++ r).get? 9 =
                (properTail (some false) ++ r').get? 9 :=
              congrArg (fun l : Str => List.get? l 9) heq
            rw [List.get?_append (by decide), List.get?_append (by decide)]
              at h9
            exact absurd h9 (by decide)
          · exact ⟨rfl, List.append_cancel_left heq⟩

theorem igStr_first_append_inj {g g' : InflGroup}
    (hc : canonicalIGB true g = true) (hc' : canonicalIGB true g' = true)
    {r r' : Str} (hr : r = [] ∨ ∃ t, r = '(' :: t)
    (hr' : r' = [] ∨ ∃ t, r' = '(' :: t)
    (heq : igStr 0 g ++ r = igStr 0 g' ++ r') : g = g' ∧ r = r' := by
  obtain ⟨pos, root, hp, hpu, hroot, hru, hd, hi⟩ := canonicalIG_first_dest hc
  obtain ⟨pos', root', hp', hpu', hroot', hru', hd', hi'⟩ :=
    canonicalIG_first_dest hc'
  rw [igStr_first_shape, igStr_first_shape, hp, hroot, hp', hroot'] at heq
  simp only [Option.getD_some, List.cons_append, List.append_assoc] at heq
  injection heq with _ heq1
  obtain ⟨hR, heq2⟩ := split_at_first (not_mem_of_all hru (by decide))
    (not_mem_of_all hru' (by decide)) heq1
  obtain ⟨hP, heq3⟩ := split_at_first (not_mem_of_all hpu (by decide))
    (not_mem_of_all hpu' (by decide)) heq2
  obtain ⟨hI, heq4⟩ := split_at_first (joinInfl_no_paren hi)
    (joinInfl_no_paren hi') heq3
  obtain ⟨hpq, hrq⟩ := properTail_append_inj hr hr' heq4
  have hiq := joinInfl_inj hi hi' hI
  refine ⟨?_, hrq⟩
  obtain ⟨gp, gr, gd, gi, gpr⟩ := g
  obtain ⟨gp', gr', gd', gi', gpr'⟩ := g'
  simp only at hp hroot hd hp' hroot' hd' hiq hpq
  rw [hp, hp', hroot, hroot', hd, hd', hP, hR, hiq, hpq]

theorem igStr_later_append_inj {g g' : InflGroup}
    (hc : canonicalIGB false g = true) (hc' : canonicalIGB false g' = true)
    {i i' : Nat} (hi : i ≠ 0) (hi' : i' ≠ 0)
    {r r' : Str} (hr : r = [] ∨ ∃ t, r = '(' :: t)
    (hr' : r' = [] ∨ ∃ t, r' = '(' :: t)
    (heq : igStr i g ++ r = igStr i' g' ++ r') : g = g' ∧ r = r' := by
  obtain ⟨pos, d, hp, hpu, hroot, hd, hdc, hinf⟩ := canonicalIG_later_dest hc
  obtain ⟨pos', d', hp', hpu', hroot', hd', hdc', hinf'⟩ :=
    canonicalIG_later_dest hc'
  rw [igStr_later_shape i hi, igStr_later_shape i' hi', hp, hd, hp', hd']
    at heq
  simp only [Option.getD_some, List.cons_append, List.append_assoc] at heq
  injection heq with _ heq0
  injection heq0 with _ heq1
  obtain ⟨hP, heq2⟩ := split_at_first (not_mem_of_all hpu (by decide))
    (not_mem_of_all hpu' (by decide)) heq1
  obtain ⟨hD, heq3⟩ := affixStr_true_inj hdc hdc' heq2
  obtain ⟨hI, heq4⟩ := split_at_first (joinInfl_no_paren hinf)
    (joinInfl_no_paren hinf') heq3
  obtain ⟨hpq, hrq⟩ := properTail_append_inj hr hr' heq4
  have hiq := joinInfl_inj hinf hinf' hI
  refine ⟨?_, hrq⟩
  obtain ⟨gp, gr, gd, gi, gpr⟩ := g
  obtain ⟨gp', gr', gd', gi', gpr'⟩ := g'
  simp only at hp hroot hd hp' hroot' hd' hiq hpq
  rw [hp, hp', hroot, hroot', hd, hd', hP, hD, hiq, hpq]

theorem igsStr_nil_or_paren (i : Nat) (igs : List InflGroup) :
    igsStr i igs = [] ∨ ∃ t, igsStr i igs = '(' :: t := by
  cases igs with
  | nil => exact Or.inl rfl
  | cons g rest =>
      obtain ⟨t, ht⟩ := igStr_starts_paren i g
      refine Or.inr ⟨t ++ igsStr (i + 1) rest, ?_⟩
      show igStr i g ++ igsStr (i + 1) rest = _
      rw [ht]
      rfl

theorem igsStr_later_inj : ∀ {igs igs' : List InflGroup} {i i' : Nat},
    i ≠ 0 → i' ≠ 0 → igs.all (canonicalIGB false) = true →
    igs'.all (canonicalIGB false) = true →
    igsStr i igs = igsStr i' igs' → igs = igs' := by
  intro igs
  induction igs with
  | nil =>
      intro igs' i i' hi hi' _ hall' heq
      cases igs' with
      | nil => rfl
      | cons g' t' =>
          obtain ⟨t0, ht0⟩ := igStr_starts_paren i' g'
          have heq2 : ([] : Str) = igStr i' g' ++ igsStr (i' + 1) t' := heq
          rw [ht0] at heq2
          cases heq2
  | cons g t ih =>
      intro igs' i i' hi hi' hall hall' heq
      cases igs' with
      | nil =>
          obtain ⟨t0, ht0⟩ := igStr_starts_paren i g
          have heq2 : igStr i g ++ igsStr (i + 1) t = ([] : Str) := heq
          rw [ht0] at heq2
          cases heq2
      | cons g' t' =>
          have heq2 : igStr i g ++ igsStr (i + 1) t =
              igStr i' g' ++ igsStr (i' + 1) t' := heq
          simp only [List.all_cons, Bool.and_eq_true] at hall hall'
          obtain ⟨hg, hrest⟩ := igStr_later_append_inj hall.1 hall'.1 hi hi'
            (igsStr_nil_or_paren _ _) (igsStr_nil_or_paren _ _) heq2
          rw [hg, ih (Nat.succ_ne_zero i) (Nat.succ_ne_zero i') hall.2
            hall'.2 hrest]

theorem prettyAnalysis_inj {P P' : Analysis}
    (hc : canonicalAnalysisB P = true) (hc' : canonicalAnalysisB P' = true)
    (heq : prettyAnalysis P = prettyAnalysis P') : P = P' := by
  obtain ⟨igs⟩ := P
  obtain ⟨igs'⟩ := P'
  cases igs with
  | nil => simp [canonicalAnalysisB] at hc
  | cons g t =>
      cases igs' with
      | nil => simp [canonicalAnalysisB] at hc'
      | cons g' t' =>
          have hc2 : (canonicalIGB true g &&
            t.all (canonicalIGB false)) = true := hc
          have hc2' : (canonicalIGB true g' &&
            t'.all (canonicalIGB false)) = true := hc'
          simp only [Bool.and_eq_true] at hc2 hc2'
          have heq2 : igStr 0 g ++ igsStr 1 t =
              igStr 0 g' ++ igsStr 1 t' := heq
          obtain ⟨hg, hrest⟩ := igStr_first_append_inj hc2.1 hc2'.1
            (igsStr_nil_or_paren _ _) (igsStr_nil_or_paren _ _) heq2
          rw [hg, igsStr_later_inj one_ne_zero one_ne_zero hc2.2 hc2'.2 hrest]

theorem all_false_set_last_proper :
    ∀ {l : List InflGroup} {lastIg : InflGroup}, l.getLast? = some lastIg →
      ∀ p : Option Bool,
        (l.dropLast ++ [{ lastIg with proper := p }]).all
            (canonicalIGB false) =
          l.all (canonicalIGB false) := by
  intro l
  induction l with
  | nil => intro lastIg h; cases h
  | cons a t ih =>
      intro lastIg h p
      cases t with
      | nil =>
          simp only [List.getLast?_singleton, Option.some.injEq] at h
          subst h
          calc ([a].dropLast ++ [{ a with proper := p }]).all
                (canonicalIGB false)
              = (canonicalIGB false { a with proper := p } && true) := rfl
            _ = (canonicalIGB false a && true) := by
                rw [canonicalIGB_set_proper]
            _ = [a].all (canonicalIGB false) := rfl
      | cons b u =>
          rw [List.getLast?_cons_cons] at h
          calc ((a :: b :: u).dropLast ++
                [{ lastIg with proper := p }]).all (canonicalIGB false)
              = (canonicalIGB false a &&
                  ((b :: u).dropLast ++ [{ lastIg with proper := p }]).all
                    (canonicalIGB false)) := rfl
            _ = (canonicalIGB false a &&
                  (b :: u).all (canonicalIGB false)) := by rw [ih h p]
            _ = (a :: b :: u).all (canonicalIGB false) := rfl

theorem canonicalAnalysisB_set_last_proper {P : Analysis}
    {lastIg : InflGroup} (hL : P.ig.getLast? = some lastIg)
    (p : Option Bool) :
    canonicalAnalysisB ⟨P.ig.dropLast ++ [{ lastIg with proper := p }]⟩ =
      canonicalAnalysisB P := by
  obtain ⟨igs⟩ := P
  simp only at hL
  cases igs with
  | nil => cases hL
  | cons g t =>
      cases t with
      | nil =>
          simp only [List.getLast?_singleton, Option.some.injEq] at hL
          subst hL
          calc canonicalAnalysisB
                ⟨[g].dropLast ++ [({ g with proper := p } : InflGroup)]⟩
              = (canonicalIGB true ({ g with proper := p } : InflGroup) &&
                  true) := rfl
            _ = (canonicalIGB true g && true) := by
                rw [canonicalIGB_set_proper]
            _ = canonicalAnalysisB ⟨[g]⟩ := rfl
      | cons b u =>
          rw [List.getLast?_cons_cons] at hL
          calc canonicalAnalysisB
                ⟨(g :: b :: u).dropLast ++
                  [({ lastIg with proper := p } : InflGroup)]⟩
              = (canonicalIGB true g &&
                  ((b :: u).dropLast ++
                    [({ lastIg with proper := p } : InflGroup)]).all
                    (canonicalIGB false)) := rfl
            _ = (canonicalIGB true g &&
                  (b :: u).all (canonicalIGB false)) := by
                rw [all_false_set_last_proper hL p]
            _ = canonicalAnalysisB ⟨g :: b :: u⟩ := rfl

theorem set_proper_eq_inv {g g' : InflGroup} {p : Option Bool}
    (hg : g.proper = none) (h : { g with proper := p } = g') :
    g = { g' with proper := none } := by
  obtain ⟨gp, gr, gd, gi, gpr⟩ := g
  simp only at hg
  subst hg
  rw [← h]

theorem analysis_eq_of_ig {P Q : Analysis} (h : P.ig = Q.ig) : P = Q := by
  obtain ⟨a⟩ := P
  obtain ⟨b⟩ := Q
  simpa using h

/-- C1 (amended): for every structured parse accepted by the C10
validator whose surface form is derivable (spec-modelled via §8
scenarios 1, 2 and 4 together with round-trip property 2, including
multi-inflectional-group parses) and whose fields use the analyzer's
own alphabet — part-of-speech tags over `[A-Z]`, roots free of
`(`/`)`/`[`, feature categories and values alphanumeric,
meta-morphemes over the meta-morpheme alphabet and never
present-but-empty, no derivation on the first inflectional group and
no root on later ones — decomposing the pretty-printed string yields
the parse back. -/
theorem c1_round_trip (P : Analysis) (hv : validateAnalysis P = .ok ())
    (hc : canonicalAnalysisB P = true) (hd : surfaceDerivable P) :
    humanReadableAnalysis (prettyAnalysis P) = .ok P := by
  obtain ⟨P', hadd, hmem⟩ := hd
  simp only [specDerivableSurfaces, List.mem_cons, List.mem_singleton,
    List.not_mem_nil, or_false] at hmem
  unfold addProper at hadd
  cases hL : P.ig.getLast? with
  | none => rw [hL] at hadd; cases hadd
  | some lastIg =>
      simp only [hL] at hadd
      by_cases hpx : lastIg.proper.isSome
      · rw [if_pos hpx] at hadd
        injection hadd with hP'
        rw [← hP'] at hmem
        rcases hmem with h | h | h
        · rw [prettyAnalysis_inj hc (by decide)
            (h.trans (show sAraba = prettyAnalysis arabaAnalysis by decide))]
          decide
        · rw [prettyAnalysis_inj hc (by decide)
            (h.trans
              (show sEvdeki = prettyAnalysis evdekiAnalysis by decide))]
          decide
        · rw [prettyAnalysis_inj hc (by decide)
            (h.trans
              (show sYasaProper = prettyAnalysis yasaAnalysis by decide))]
          decide
      · rw [if_neg hpx] at hadd
        injection hadd with hP'
        have hlp : lastIg.proper = none :=
          Option.not_isSome_iff_eq_none.mp hpx
        have hsnoc : P.ig.dropLast ++ [lastIg] = P.ig :=
          dropLast_append_getLast_of_eq hL
        have hcP' : canonicalAnalysisB P' = true := by
          rw [← hP', canonicalAnalysisB_set_last_proper hL]
          exact hc
        rcases hmem with h | h | h
        · exfalso
          have hPA : P' = arabaAnalysis :=
            prettyAnalysis_inj hcP' (by decide)
              (h.trans (show sAraba = prettyAnalysis arabaAnalysis by decide))
          have higs := congrArg Analysis.ig (hP'.trans hPA)
          simp only [arabaAnalysis] at higs
          rw [show ([arabaIG] : List InflGroup) = [] ++ [arabaIG] from rfl]
            at higs
          obtain ⟨hpre, hmod⟩ := append_singleton_inj higs
          have hpos : lastIg.pos = some (("NN").data) := by
            have := congrArg InflGroup.pos hmod
            simpa [arabaIG] using this
          have hprop := congrArg InflGroup.proper hmod
          rw [show arabaIG.proper = some true from rfl] at hprop
          simp only [hpos] at hprop
          simp at hprop
        · have hPA : P' = evdekiAnalysis :=
            prettyAnalysis_inj hcP' (by decide)
              (h.trans
                (show sEvdeki = prettyAnalysis evdekiAnalysis by decide))
          have higs := congrArg Analysis.ig (hP'.trans hPA)
          simp only [evdekiAnalysis] at higs
          rw [show ([evdekiIG1, evdekiIG2] : List InflGroup) =
            [evdekiIG1] ++ [evdekiIG2] from rfl] at higs
          obtain ⟨hpre, hmod⟩ := append_singleton_inj higs
          have hlast : lastIg = { evdekiIG2 with proper := none } :=
            set_proper_eq_inv hlp hmod
          have hP2 : P.ig =
              [evdekiIG1] ++ [{ evdekiIG2 with proper := none }] := by
            rw [← hsnoc, hpre, hlast]
          have hPfin : P = evdekiNoProper :=
            analysis_eq_of_ig (hP2.trans rfl)
          rw [hPfin]
          decide
        · have hPA : P' = yasaAnalysis :=
            prettyAnalysis_inj hcP' (by decide)
              (h.trans
                (show sYasaProper = prettyAnalysis yasaAnalysis by decide))
          have higs := congrArg Analysis.ig (hP'.trans hPA)
          simp only [yasaAnalysis] at higs
          rw [show ([yasaIG1, yasaIG2] : List InflGroup) =
            [yasaIG1] ++ [yasaIG2] from rfl] at higs
          obtain ⟨hpre, hmod⟩ := append_singleton_inj higs
          have hlast : lastIg = { yasaIG2 with proper := none } :=
            set_proper_eq_inv hlp hmod
          have hP2 : P.ig =
              [yasaIG1] ++ [{ yasaIG2 with proper := none }] := by
            rw [← hsnoc, hpre, hlast]
          have hPfin : P = yasaNoProper :=
            analysis_eq_of_ig (hP2.trans rfl)
          rw [hPfin]
          decide

/-- C1 (counterexample): `cAlt` is accepted by the validator, its
surface form is derivable (it pretty-prints to the spec's scenario-4
generation input `sAraba`), yet decomposition of its pretty-printed
form does not return `cAlt` — pretty-printing is not injective because
roots and part-of-speech tags may contain bracket characters. -/
theorem c1_counterexample :
    validateAnalysis cAlt = .ok () ∧
    addProper cAlt = some cAlt ∧
    prettyAnalysis cAlt = sAraba ∧
    sAraba ∈ specDerivableSurfaces ∧
    humanReadableAnalysis (prettyAnalysis cAlt) ≠ .ok cAlt := by
  refine ⟨by decide, by decide, by decide, by decide, by decide⟩

/-- C1 (witness): the amended round-trip theorem applied to the
structured parse of `sAraba`. -/
theorem c1_witness :
    humanReadableAnalysis (prettyAnalysis arabaAnalysis) =
      .ok arabaAnalysis :=
  c1_round_trip arabaAnalysis (by decide) (by decide)
    ⟨arabaAnalysis, by decide, by decide⟩

end TM
